import Mathlib

/-!
# MPW toolbox: FSSpec registry, name classifier and Finder-info bridge

A shallow embedding of

* `toolbox/os_highlevel.cpp`: `FSSpecManager::idForPath`, `FSSpecManager::pathForID`,
  `OS::FSMakeFSSpec`, `OS::FSpSetFInfo` and the path reconstruction of `OS::FSpGetFInfo` /
  `OS::FSpSetFInfo`;
* `native/native.cpp`: `extension`, `basename`, `is_text_file_internal`,
  `is_binary_file_internal`, `is_binary_file`, `fixup_prodos_ftype`, `unix_to_mac`,
  `epoch_adjust`;
* `native/SunOS.cpp`: `get_finder_info`, `rforksize`, `get_file_info`.

Conventions.  A `std::string` is a `List Char`.  A byte buffer (`uint8_t buffer[32]`) is a
`List Nat`.  The static `std::deque<Entry> _pathQueue` is passed explicitly as a `List Entry`.
`std::hash<std::string>` is a parameter `hasher`.  The host calls `realpath`, `attropen`,
`read`, `stat`, `getxattr` and `setxattr` are parameters describing what the host answers.
-/

namespace MPW

/-! ## The FSSpec registry (`FSSpecManager`) -/

/-- Entry of the path queue: `struct Entry { std::string path; size_t hash; }`. -/
structure Entry where
  path : List Char
  hash : Nat
deriving DecidableEq, Repr

/-- The `for (const auto &e : _pathQueue)` loop of `idForPath`, started with counter `i`:
the counter value at the first entry whose hash and path both match, if any. -/
def idForPath.scan (path : List Char) (hash : Nat) : List Entry → Int → Option Int
  | [], _ => none
  | e :: es, i =>
    if e.hash = hash ∧ e.path = path then some i
    else idForPath.scan path hash es (i + 1)

/-- Function `FSSpecManager::idForPath(path, insert)`: the returned token and the queue
afterwards.  The counter `int i` and the returned `_pathQueue.size()` are unbounded integers
here (the C++ is defined only while the queue holds fewer than 2^31 entries). -/
def idForPath (hasher : List Char → Nat) (q : List Entry) (path : List Char) (insert : Bool) :
    Int × List Entry :=
  let hash := hasher path
  match idForPath.scan path hash q 1 with
  | some i => (i, q)
  | none =>
    if !insert then (-1, q)
    else
      let q' := q ++ [Entry.mk path hash]
      ((q'.length : Int), q')

/-- Function `FSSpecManager::pathForID(id)`; `NullString` is the empty string. -/
def pathForID (q : List Entry) (id : Int) : List Char :=
  if id < 1 then []
  else if id > (q.length : Int) then []
  else
    match q[(id - 1).toNat]? with
    | some e => e.path
    | none => []

/-- A sequence of `idForPath(p, true)` calls made one after the other from queue `q`: the
tokens returned, in call order, and the queue at the end. -/
def registerAll (hasher : List Char → Nat) : List Entry → List (List Char) → List Int × List Entry
  | q, [] => ([], q)
  | q, p :: ps =>
    let r := idForPath hasher q p true
    let rest := registerAll hasher r.2 ps
    (r.1 :: rest.1, rest.2)

/-- The queue after a sequence of arbitrary `idForPath(path, insert)` calls from queue `q`. -/
def runCalls (hasher : List Char → Nat) : List Entry → List (List Char × Bool) → List Entry
  | q, [] => q
  | q, c :: cs => runCalls hasher (idForPath hasher q c.1 c.2).2 cs

/-- Registry states: the queues that `idForPath` calls can produce from the empty queue
(`_pathQueue` is private and written by `idForPath` only). -/
def Reachable (hasher : List Char → Nat) (q : List Entry) : Prop :=
  ∃ calls, runCalls hasher [] calls = q

/-- The paths stored in the queue, in queue order. -/
def paths (q : List Entry) : List (List Char) := q.map Entry.path

/-- Every stored hash is the hash of the stored path (what the fast-reject test of the scan
relies on). -/
def HashOK (hasher : List Char → Nat) (q : List Entry) : Prop :=
  ∀ e ∈ q, e.hash = hasher e.path

/-- Specification side of the registration order: the distinct elements of a list, each at
the place of its first occurrence. -/
def firstOccurrences {α : Type} [DecidableEq α] : List α → List α
  | [] => []
  | a :: l => a :: (firstOccurrences l).filter (fun x => decide (x ≠ a))

/-! ## String helpers of `std::string` -/

/-- Member `s.find_last_of(chars)`: the position of the last character of `s` that occurs in
`chars`; `none` is `npos`. -/
def find_last_of : List Char → List Char → Option Nat
  | [], _ => none
  | c :: cs, chars =>
    match find_last_of cs chars with
    | some p => some (p + 1)
    | none => if c ∈ chars then some 0 else none

/-! ## `OS::FSMakeFSSpec` and the path of `OS::FSpGetFInfo` / `OS::FSpSetFInfo` -/

/-- Conversion of a status constant to the `uint16_t` a trap handler returns. -/
def toU16 (x : Int) : Int := x % 65536

/-- Constant `mFulErr` of the absent header of legacy status codes ("memory full"): the
classic value -41. -/
def mFulErr : Int := -41

/-- Constant `fnfErr` of the absent header of legacy status codes ("file not found"): the
classic value -43. -/
def fnfErr : Int := -43

/-- One store into emulated memory, as issued by a trap handler: `memoryWriteWord(value,
address)`, `memoryWriteLong(value, address)`, `ToolBox::WritePString(address, s)`. -/
inductive MemWrite where
  | word (value : Int) (address : Nat)
  | long (value : Int) (address : Nat)
  | pstring (address : Nat) (s : List Char)
deriving DecidableEq, Repr

/-- How a trap handler ends: it returns a status, leaving a queue and a list of stores into
emulated memory, or it stops the process with `exit(1)`. -/
inductive Outcome where
  | returned (status : Int) (q : List Entry) (writes : List MemWrite)
  | exited
deriving DecidableEq, Repr

/-- The split of the canonical path in `FSMakeFSSpec`: `(path, leaf)` after
`pos = path.find_last_of('/')`. -/
def FSMakeFSSpec.split (cp : List Char) : List Char × List Char :=
  match find_last_of cp ['/'] with
  | none => ([], cp)
  | some pos => (cp.take (pos + 1), cp.drop (pos + 1))

/-- Function `OS::FSMakeFSSpec`, after the arguments were taken from the stack frame and
`sname` was read; `realpath s = none` stands for `realpath` returning a null pointer. -/
def FSMakeFSSpec (hasher : List Char → Nat) (realpath : List Char → Option (List Char))
    (q : List Entry) (vRefNum dirID : Nat) (sname : List Char) (spec : Nat) : Outcome :=
  let absolute : Bool := if sname.length ≠ 0 then sname.head? = some '/' else false
  if absolute ∨ (vRefNum = 0 ∧ dirID = 0) then
    match realpath sname with
    | none => Outcome.returned (toU16 mFulErr) q []
    | some cp =>
      let pl := FSMakeFSSpec.split cp
      let r := idForPath hasher q pl.1 true
      Outcome.returned 0 r.2
        [MemWrite.word vRefNum (spec + 0), MemWrite.long r.1 (spec + 2),
          MemWrite.pstring (spec + 6) pl.2]
  else Outcome.exited

/-- The host path that `FSpGetFInfo` and `FSpSetFInfo` build from the directory token and the
leaf name they read from the FSSpec: `path = pathForID(parentID); path += leaf`. -/
def FSpPath (q : List Entry) (parentID : Int) (leaf : List Char) : List Char :=
  pathForID q parentID ++ leaf

/-! ## The name classifier of `native.cpp` -/

/-- The lambda handed to `std::transform` in `extension`: `tolower` in the C locale. -/
def tolower (c : Char) : Char := c.toLower

/-- Function `extension(s)` of the anonymous namespace. -/
def extension (s : List Char) : List Char :=
  match find_last_of s ['.', '/', ':'] with
  | none => []
  | some pos =>
    if s[pos]? ≠ some '.' then []
    else if pos + 1 ≥ s.length then []
    else (s.drop (pos + 1)).map tolower

/-- Function `basename(s)` of the anonymous namespace. -/
def basename (s : List Char) : List Char :=
  match find_last_of s ['/', ':'] with
  | none => s
  | some pos => s.drop (pos + 1)

/-- The `switch (c)` over the text extensions in `is_text_file_internal`: `true` when one of
its `return true` statements is reached, `false` when control leaves the switch. -/
def is_text_file_internal.switch (ext : List Char) : Bool :=
  match ext.head? with
  | some 'a' => ext = "aii".toList || ext = "asm".toList
  | some 'c' => ext = "c".toList || ext = "cpp".toList
  | some 'e' => ext = "equ".toList || ext = "equates".toList
  | some 'i' => ext = "i".toList || ext = "inc".toList
  | some 'h' => ext = "h".toList
  | some 'l' => ext = "lst".toList
  | some 'm' => ext = "macros".toList
  | some 'p' => ext = "p".toList || ext = "pas".toList || ext = "pii".toList
  | some 'r' => ext = "r".toList || ext = "rez".toList || ext = "rii".toList
  | some 's' => ext = "src".toList
  | _ => false

/-- The check for `e16.xxxx` or `m16.xxxx` at the end of `is_text_file_internal`, on the
basename. -/
def is_text_file_internal.m16 (ext : List Char) : Bool :=
  if ext.length > 4 then
    match ext.head? with
    | some 'm' | some 'M' | some 'e' | some 'E' =>
      decide ((ext.drop 1).take 3 = "16.".toList)
    | _ => false
  else false

/-- Function `native::is_text_file_internal`. -/
def is_text_file_internal (path_name : List Char) : Bool :=
  let ext := extension path_name
  if ext.isEmpty then false
  else if is_text_file_internal.switch ext then true
  else is_text_file_internal.m16 (basename path_name)

/-- Function `native::is_binary_file_internal`. -/
def is_binary_file_internal (path_name : List Char) : Bool :=
  let ext := extension path_name
  if ext.isEmpty then false
  else
    match ext.head? with
    | some 'l' => ext = "lib".toList
    | some 'n' => ext = "n".toList || ext = "ntkc".toList
    | some 'o' => ext = "o".toList || ext = "obj".toList
    | some 's' => ext = "sym".toList
    | _ => false

/-- The three answers of the specification's name classifier. -/
inductive Classification where
  | text
  | binary
  | unknown
deriving DecidableEq, Repr

/-- The name classifier `classify_by_name` of the specification, assembled from the two
predicates of the source: text when `is_text_file_internal` holds, else binary when
`is_binary_file_internal` holds, else unknown. -/
def classify_by_name (path_name : List Char) : Classification :=
  if is_text_file_internal path_name then Classification.text
  else if is_binary_file_internal path_name then Classification.binary
  else Classification.unknown

/-! ## The Finder-info blob: `fixup_prodos_ftype` and `get_finder_info` -/

/-- The bytes of a string literal, as `memcmp` and `memcpy` see them. -/
def bytesOf (s : String) : List Nat := s.toList.map Char.toNat

/-- The table `static char Hex[] = "0123456789ABCDEF"` of `fixup_prodos_ftype`. -/
def Hex : List Nat := bytesOf "0123456789ABCDEF"

/-- Function `native::fixup_prodos_ftype(buffer)`: the buffer after the call.  The buffer
holds at least 8 bytes (every caller hands over `uint8_t buffer[32]`). -/
def fixup_prodos_ftype (buffer : List Nat) : List Nat :=
  if (buffer.drop 4).take 4 = bytesOf "pdos" then
    if buffer.getD 0 0 = 'p'.toNat ∧ buffer.getD 2 0 = 0 ∧ buffer.getD 3 0 = 0 then
      let ftype := buffer.getD 1 0
      let b0 := buffer.set 0 (Hex.getD (ftype >>> 4) 0)
      let b1 := b0.set 1 (Hex.getD (ftype &&& 0x0f) 0)
      let b2 := b1.set 2 ' '.toNat
      b2.set 3 ' '.toNat
    else buffer
  else buffer

/-- Specification side of the fixup: the upper-case ASCII hex digit of a nibble. -/
def hexDigitUpper (n : Nat) : Nat := if n < 10 then '0'.toNat + n else 'A'.toNat + (n - 10)

/-- Call `memcpy(dst, src, n)` on byte buffers: the first `n` bytes of `dst` are replaced by
the first `n` bytes of `src`. -/
def memcpy (dst src : List Nat) (n : Nat) : List Nat := src.take n ++ dst.drop n

/-- Call `read(fd, buffer, n)` on an attribute whose content is `data`: the count returned
and the buffer afterwards. -/
def read (data buffer : List Nat) (n : Nat) : Int × List Nat :=
  let got := data.take n
  ((got.length : Int), memcpy buffer got got.length)

/-- Status `noErr`. -/
def noErr : Int := 0

/-- Function `native::get_finder_info(path_name, info, extended)` of `SunOS.cpp`: the status
and the bytes copied to `info`.  `finderInfo path` is the content of the attribute
`com.apple.FinderInfo` of `path`, `none` when `attropen` fails. -/
def get_finder_info (finderInfo : List Char → Option (List Nat)) (path_name : List Char)
    (extended : Bool) : Int × List Nat :=
  let buffer : List Nat := List.replicate 32 0
  let fallback (buffer : List Nat) : Int × List Nat :=
    let buffer := if is_text_file_internal path_name then memcpy buffer (bytesOf "TEXTMPS ") 8
      else buffer
    (noErr, buffer.take (if extended then 32 else 16))
  match finderInfo path_name with
  | some data =>
    let r := read data buffer 32
    if r.1 = 32 ∨ r.1 = 16 then
      let buffer := fixup_prodos_ftype r.2
      (0, buffer.take (if extended then 32 else 16))
    else fallback r.2
  | none => fallback buffer

/-! ## Timestamps and `get_file_info` (`native.cpp`, `SunOS.cpp`) -/

/-- Constant `epoch_adjust` of `native.cpp`, with the value of its initialiser. -/
def epoch_adjust : Int := 86400 * (365 * (1970 - 1904) + 17)

/-- A value of a signed 32-bit `int` computation: `none` when it does not fit. -/
def checkedInt32 (x : Int) : Option Int :=
  if -2147483648 ≤ x ∧ x ≤ 2147483647 then some x else none

/-- The initialiser `86400 * (365 * (1970 - 1904) + 17)` evaluated step by step in `int`
arithmetic, `none` as soon as one step overflows. -/
def epoch_adjust_int32 : Option Int :=
  (checkedInt32 (1970 - 1904)).bind fun a =>
  (checkedInt32 (365 * a)).bind fun b =>
  (checkedInt32 (b + 17)).bind fun c =>
  checkedInt32 (86400 * c)

/-- Two's complement wrap of a value to the range of a signed 64-bit integer, the width of
`long`, `time_t`, `off_t` and `ssize_t`: what an addition of the compiled code leaves when its
sum does not fit. -/
def toInt64 (x : Int) : Int :=
  (x + 9223372036854775808) % 18446744073709551616 - 9223372036854775808

/-- Function `native::unix_to_mac`; the addition `t + epoch_adjust` is done in the signed
64-bit `time_t`. -/
def unix_to_mac (t : Int) : Int :=
  if t = 0 then 0 else toInt64 (t + epoch_adjust)

/-- Specification side of the epoch offset: Gregorian leap years. -/
def isLeapYear (y : Nat) : Bool := (y % 4 = 0 ∧ y % 100 ≠ 0) ∨ y % 400 = 0

/-- Specification side of the epoch offset: the days from 1 January of year `a` to 1 January
of year `b`. -/
def daysBetweenYears (a b : Nat) : Nat :=
  ((List.range (b - a)).map (fun i => if isLeapYear (a + i) then 366 else 365)).sum

/-- The fields of `struct stat` that `get_file_info` reads; `S_ISDIR` is the answer of the
macro on `st_mode`, `st_nlink` an unsigned 32-bit value, `st_size`, `st_ctime` and `st_mtime`
signed 64-bit values. -/
structure Stat where
  S_ISDIR : Bool
  st_nlink : Nat
  st_size : Int
  st_ctime : Int
  st_mtime : Int
deriving DecidableEq, Repr

/-- The enumeration of `file_info::type`. -/
inductive FileType where
  | none
  | file
  | directory
deriving DecidableEq, Repr

/-- The fields of `file_info` that `get_file_info` writes.  The record is declared outside
these sources; each field holds the value the code assigns to it. -/
structure file_info where
  type : FileType
  entry_count : Int
  create_date : Int
  modify_date : Int
  backup_date : Int
  data_logical_size : Int
  data_physical_size : Int
  resource_logical_size : Int
  resource_physical_size : Int
  finder_info : List Nat
deriving DecidableEq, Repr

/-- Conversion of an unsigned 32-bit value to `int`. -/
def toInt32 (x : Nat) : Int :=
  if x % 4294967296 < 2147483648 then ((x % 4294967296 : Nat) : Int)
  else ((x % 4294967296 : Nat) : Int) - 4294967296

/-- The statement `int links = st.st_nlink - 2;`: `nlink_t` is the unsigned 32-bit `uint_t`
of SunOS, so the subtraction is done modulo 2^32 and then converted to `int` (a wider
unsigned `nlink_t` gives the same `int` for every link count below 2^32). -/
def linksOf (st_nlink : Nat) : Int :=
  toInt32 ((st_nlink % 4294967296 + 4294967294) % 4294967296)

/-- The expression `(x + 511) & ~511` on a signed 64-bit value (`off_t`, `ssize_t`): the sum
is done in that width. -/
def roundUp512 (x : Int) : Int := Int.land (toInt64 (x + 511)) (~~~(511 : Int))

/-- Function `rforksize` of `SunOS.cpp`.  `rfork path` is what the host answers for the
attribute `com.apple.ResourceFork`: `none` when `attropen` fails, `some none` when `fstat`
fails, `some (some size)` otherwise; the result is a `uint32_t`. -/
def rforksize (rfork : List Char → Option (Option Int)) (path_name : List Char) : Int :=
  match rfork path_name with
  | none => 0
  | some none => 0
  | some (some st_size) => st_size % 4294967296

/-- Function `native::get_file_info(path_name, fi)` of `SunOS.cpp`: the status and the record
afterwards.  `stat path` is the host's answer (`Except.error errno` when `stat` fails),
`macos_error_from_errno` the absent status mapping, and `extended` the default argument of
`get_finder_info` declared in the absent header. -/
def get_file_info (macos_error_from_errno : Nat → Int) (stat : List Char → Except Nat Stat)
    (finderInfo : List Char → Option (List Nat)) (rfork : List Char → Option (Option Int))
    (extended : Bool) (path_name : List Char) (fi : file_info) : Int × file_info :=
  match stat path_name with
  | Except.error errno => (macos_error_from_errno errno, fi)
  | Except.ok st =>
    let fi := { fi with
      create_date := unix_to_mac st.st_ctime
      modify_date := unix_to_mac st.st_mtime
      backup_date := 0 }
    if st.S_ISDIR then
      let fi := { fi with type := FileType.directory }
      let links := linksOf st.st_nlink
      let links := if links < 0 then 0 else links
      let links := if links > 65535 then 65535 else links
      (noErr, { fi with entry_count := links })
    else
      let fi := { fi with
        type := FileType.file
        data_logical_size := st.st_size
        data_physical_size := roundUp512 st.st_size
        resource_physical_size := 0
        resource_logical_size := 0 }
      let info := (get_finder_info finderInfo path_name extended).2
      let fi := { fi with finder_info := memcpy fi.finder_info info info.length }
      let rsize := rforksize rfork path_name
      let fi := if rsize > 0 then
          { fi with
            resource_physical_size := rsize
            resource_logical_size := roundUp512 rsize }
        else fi
      (noErr, fi)

/-! ## `is_binary_file` (`native.cpp`) -/

/-- A multi-character constant such as `'pdos'`: its bytes, first character in the high
byte. -/
def fourCC (bytes : List Nat) : Nat := bytes.foldl (fun acc b => acc * 256 + b) 0

/-- Function `native::get_finder_info(path_name, ftype, ctype)` of `native.cpp`: the status and
the two reference arguments afterwards.  The function returns `noErr` before the assignments
to `ftype` and `ctype`, so both keep the value they came in with. -/
def get_finder_info_ftype_ctype (finderInfo : List Char → Option (List Nat))
    (path_name : List Char) (ftype ctype : Nat) : Int × Nat × Nat :=
  let err := (get_finder_info finderInfo path_name false).1
  if err ≠ 0 then (err, ftype, ctype)
  else (noErr, ftype, ctype)

/-- Function `native::is_binary_file`.  `ftype0` and `ctype0` are the values the locals
`uint32_t ftype, ctype;` hold when they are declared. -/
def is_binary_file (finderInfo : List Char → Option (List Nat)) (path_name : List Char)
    (ftype0 ctype0 : Nat) : Bool :=
  let r := get_finder_info_ftype_ctype finderInfo path_name ftype0 ctype0
  let err := r.1
  let ftype := r.2.1
  let ctype := r.2.2
  if err = 0 then
    if ctype = fourCC (bytesOf "pdos") then
      if ftype &&& 0xf0ff = fourCC [0x42, 0x00, 0x20, 0x20] then true
      else if ftype &&& 0xf000 = fourCC (bytesOf "p") then true
      else if ftype = fourCC (bytesOf "BINA") then true
      else is_text_file_internal path_name
    else if ftype = fourCC (bytesOf "BINA") then true
    else is_text_file_internal path_name
  else is_text_file_internal path_name

/-! ## `OS::FSpSetFInfo` and the attribute store -/

/-- Host error number `ENOENT`. -/
def ENOENT : Nat := 2

/-- Host error number `EACCES`. -/
def EACCES : Nat := 13

/-- Host error number `ENOATTR`, with which `getxattr` fails when the file exists and the
attribute does not. -/
def ENOATTR : Nat := 93

/-- Host error number `ERANGE`, with which `getxattr` fails when the attribute does not fit
the buffer. -/
def ERANGE : Nat := 34

/-- What `::getxattr(path, XATTR_FINDERINFO_NAME, buffer, 32, 0, 0)` answers: a failure with
its `errno`, or the bytes it stored into the buffer (their count is the return value). -/
inductive XattrProbe where
  | fail (errno : Nat)
  | ok (data : List Nat)
deriving DecidableEq, Repr

/-- Function `OS::FSpSetFInfo`, after the FSSpec and the 16 bytes at `finderInfo` were read
from emulated memory: the status, and the `setxattr` call it issued (path and the 32 bytes),
if any.  `setxattr path value` is `none` when the host call succeeds and `some errno`
otherwise; `errno_to_oserr` is the absent status mapping. -/
def FSpSetFInfo (errno_to_oserr : Nat → Int) (getxattr : List Char → XattrProbe)
    (setxattr : List Char → List Nat → Option Nat) (q : List Entry) (parentID : Int)
    (leaf : List Char) (finderInfo : List Nat) : Int × Option (List Char × List Nat) :=
  let path := FSpPath q parentID leaf
  let buffer : List Nat := List.replicate 32 0
  let write (buffer : List Nat) : Int × Option (List Char × List Nat) :=
    let buffer := memcpy buffer finderInfo 16
    match setxattr path (buffer.take 32) with
    | some errno => (toU16 (errno_to_oserr errno), some (path, buffer.take 32))
    | none => (0, some (path, buffer.take 32))
  match getxattr path with
  | XattrProbe.fail errno =>
    if errno = ENOENT ∨ errno = EACCES then (toU16 (errno_to_oserr errno), none)
    else write buffer
  | XattrProbe.ok data => write (read data buffer 32).2

/-- The answer of `getxattr` over an explicit attribute store (the stored
`com.apple.FinderInfo` of each existing, accessible path). -/
def storeGetxattr (store : List Char → Option (List Nat)) (path : List Char) : XattrProbe :=
  match store path with
  | none => XattrProbe.fail ENOATTR
  | some data => if data.length ≤ 32 then XattrProbe.ok data else XattrProbe.fail ERANGE

/-- The attribute store after a `setxattr` call that succeeded. -/
def storeAfter (store : List Char → Option (List Nat)) (call : Option (List Char × List Nat)) :
    List Char → Option (List Nat) :=
  match call with
  | none => store
  | some pv => fun x => if x = pv.1 then some pv.2 else store x

/-- Function `OS::FSpSetFInfo` run over an explicit attribute store on which `setxattr`
succeeds: the status and the store afterwards. -/
def FSpSetFInfo_store (errno_to_oserr : Nat → Int) (store : List Char → Option (List Nat))
    (q : List Entry) (parentID : Int) (leaf : List Char) (finderInfo : List Nat) :
    Int × (List Char → Option (List Nat)) :=
  let r := FSpSetFInfo errno_to_oserr (storeGetxattr store) (fun _ _ => none) q parentID leaf
    finderInfo
  (r.1, storeAfter store r.2)

/-- Specification side of the set-info claim: the result `r` of `FSpSetFInfo` shows a
`setxattr` call at `path` with a 32-byte value whose bytes 0..15 are `b` and whose bytes
16..31 are `ext`; when the host accepts that call the status is 0 and the value is what the
store holds for `path` afterwards. -/
def StoresBlob (setxattr : List Char → List Nat → Option Nat)
    (r : Int × Option (List Char × List Nat)) (path : List Char) (b ext : List Nat) : Prop :=
  ∃ v, r.2 = some (path, v) ∧ v.length = 32 ∧ v.take 16 = b ∧ v.drop 16 = ext ∧
    (setxattr path v = none →
      r.1 = 0 ∧ ∀ store : List Char → Option (List Nat), storeAfter store r.2 path = some v)

/-! ## Lemmas on the registry -/

theorem scan_some (path : List Char) (hash : Nat) :
    ∀ (q : List Entry) (i t : Int), idForPath.scan path hash q i = some t →
      i ≤ t ∧ t < i + q.length ∧ ∃ e, q[(t - i).toNat]? = some e ∧ e.path = path := by
  intro q
  induction q with
  | nil => intro i t h; simp [idForPath.scan] at h
  | cons e es ih =>
    intro i t h
    unfold idForPath.scan at h
    split at h
    · rename_i hm
      injection h with h
      subst h
      refine ⟨le_refl _, ?_, e, ?_, hm.2⟩
      · simp only [List.length_cons, Nat.cast_succ]; omega
      · simp
    · obtain ⟨h1, h2, e', h3, h4⟩ := ih (i + 1) t h
      refine ⟨by omega, ?_, e', ?_, h4⟩
      · simp only [List.length_cons, Nat.cast_succ]; omega
      · have : (t - i).toNat = (t - (i + 1)).toNat + 1 := by omega
        rw [this]
        simpa using h3

theorem scan_eq_none_iff (hasher : List Char → Nat) (path : List Char) :
    ∀ (q : List Entry) (i : Int), HashOK hasher q →
      (idForPath.scan path (hasher path) q i = none ↔ path ∉ paths q) := by
  intro q
  induction q with
  | nil => intro i _; simp [idForPath.scan, paths]
  | cons e es ih =>
    intro i hq
    have he : e.hash = hasher e.path := hq e (List.mem_cons_self _ _)
    have hes : HashOK hasher es := fun x hx => hq x (List.mem_cons_of_mem _ hx)
    unfold idForPath.scan
    by_cases hp : e.path = path
    · subst hp
      simp [he, paths]
    · have hp' : path ≠ e.path := fun h => hp h.symm
      rw [if_neg (fun h => hp h.2), ih (i + 1) hes]
      simp only [paths, List.map_cons, List.mem_cons, not_or]
      exact ⟨fun h => ⟨hp', h⟩, fun h => h.2⟩

theorem idForPath_of_some (hasher : List Char → Nat) (q : List Entry) (p : List Char)
    (ins : Bool) (t : Int) (h : idForPath.scan p (hasher p) q 1 = some t) :
    idForPath hasher q p ins = (t, q) := by
  simp only [idForPath, h]

theorem idForPath_of_none (hasher : List Char → Nat) (q : List Entry) (p : List Char)
    (ins : Bool) (h : idForPath.scan p (hasher p) q 1 = none) :
    idForPath hasher q p ins =
      if ins then (((q.length : Int) + 1), q ++ [Entry.mk p (hasher p)]) else (-1, q) := by
  cases ins <;> simp [idForPath, h]

theorem idForPath_queue (hasher : List Char → Nat) (q : List Entry) (p : List Char)
    (ins : Bool) :
    (idForPath hasher q p ins).2 = q ∨
      (idForPath hasher q p ins).2 = q ++ [Entry.mk p (hasher p)] := by
  cases h : idForPath.scan p (hasher p) q 1 with
  | some t => rw [idForPath_of_some hasher q p ins t h]; exact Or.inl rfl
  | none => rw [idForPath_of_none hasher q p ins h]; cases ins <;> simp

theorem hashOK_idForPath (hasher : List Char → Nat) (q : List Entry) (p : List Char)
    (ins : Bool) (hq : HashOK hasher q) : HashOK hasher (idForPath hasher q p ins).2 := by
  rcases idForPath_queue hasher q p ins with h | h <;> rw [h]
  · exact hq
  · intro e he
    rcases List.mem_append.1 he with h1 | h1
    · exact hq e h1
    · simp only [List.mem_singleton] at h1
      subst h1
      rfl

theorem hashOK_runCalls (hasher : List Char → Nat) :
    ∀ (calls : List (List Char × Bool)) (q : List Entry), HashOK hasher q →
      HashOK hasher (runCalls hasher q calls) := by
  intro calls
  induction calls with
  | nil => intro q hq; exact hq
  | cons c cs ih => intro q hq; exact ih _ (hashOK_idForPath hasher q c.1 c.2 hq)

theorem hashOK_of_reachable (hasher : List Char → Nat) (q : List Entry)
    (h : Reachable hasher q) : HashOK hasher q := by
  obtain ⟨calls, rfl⟩ := h
  exact hashOK_runCalls hasher calls [] (fun _ he => absurd he (List.not_mem_nil _))

theorem pathForID_get (q : List Entry) (k : Nat) (e : Entry) (h : q[k]? = some e) :
    pathForID q ((k : Int) + 1) = e.path := by
  have hk : k < q.length := by
    by_contra hc
    rw [List.getElem?_eq_none (by omega)] at h
    cases h
  unfold pathForID
  rw [if_neg (by omega), if_neg (by omega)]
  have : ((k : Int) + 1 - 1).toNat = k := by omega
  rw [this, h]

theorem pathForID_append (q ext : List Entry) (t : Int) (h1 : 1 ≤ t) (h2 : t ≤ q.length) :
    pathForID (q ++ ext) t = pathForID q t := by
  unfold pathForID
  have hlt : (t - 1).toNat < q.length := by omega
  have a : ¬ t < 1 := by omega
  have b : ¬ t > (q.length : Int) := by omega
  have c : ¬ t > ((q ++ ext).length : Int) := by
    simp only [List.length_append]; push_cast; omega
  rw [if_neg a, if_neg c, if_neg a, if_neg b, List.getElem?_append_left hlt]

theorem idForPath_of_mem (hasher : List Char → Nat) (q : List Entry) (p : List Char)
    (ins : Bool) (hq : HashOK hasher q) (hp : p ∈ paths q) :
    ∃ k : Nat, (paths q)[k]? = some p ∧ idForPath hasher q p ins = ((k : Int) + 1, q) := by
  cases h : idForPath.scan p (hasher p) q 1 with
  | none => exact absurd hp ((scan_eq_none_iff hasher p q 1 hq).1 h)
  | some t =>
    obtain ⟨h1, _, e, h3, h4⟩ := scan_some p (hasher p) q 1 t h
    refine ⟨(t - 1).toNat, ?_, ?_⟩
    · simp only [paths, List.getElem?_map, h3, Option.map_some', h4]
    · rw [idForPath_of_some hasher q p ins t h]
      congr 1
      omega

theorem idForPath_of_not_mem (hasher : List Char → Nat) (q : List Entry) (p : List Char)
    (ins : Bool) (hq : HashOK hasher q) (hp : p ∉ paths q) :
    idForPath hasher q p ins =
      if ins then (((q.length : Int) + 1), q ++ [Entry.mk p (hasher p)]) else (-1, q) :=
  idForPath_of_none hasher q p ins ((scan_eq_none_iff hasher p q 1 hq).2 hp)

theorem nodup_idForPath (hasher : List Char → Nat) (q : List Entry) (p : List Char)
    (ins : Bool) (hq : HashOK hasher q) (hn : (paths q).Nodup) :
    (paths (idForPath hasher q p ins).2).Nodup := by
  by_cases hp : p ∈ paths q
  · obtain ⟨k, _, hk⟩ := idForPath_of_mem hasher q p ins hq hp
    rw [hk]; exact hn
  · rw [idForPath_of_not_mem hasher q p ins hq hp]
    cases ins
    · exact hn
    · simp only [if_true, paths, List.map_append, List.map_cons, List.map_nil]
      exact List.Nodup.append hn (List.nodup_singleton p)
        (List.disjoint_singleton.2 hp)

theorem nodup_runCalls (hasher : List Char → Nat) :
    ∀ (calls : List (List Char × Bool)) (q : List Entry), HashOK hasher q →
      (paths q).Nodup → (paths (runCalls hasher q calls)).Nodup := by
  intro calls
  induction calls with
  | nil => intro q _ hn; exact hn
  | cons c cs ih =>
    intro q hq hn
    exact ih _ (hashOK_idForPath hasher q c.1 c.2 hq) (nodup_idForPath hasher q c.1 c.2 hq hn)

theorem nodup_of_reachable (hasher : List Char → Nat) (q : List Entry)
    (h : Reachable hasher q) : (paths q).Nodup := by
  obtain ⟨calls, rfl⟩ := h
  exact nodup_runCalls hasher calls [] (fun _ he => absurd he (List.not_mem_nil _))
    List.nodup_nil

theorem nodup_index_unique {α : Type} (l : List α) (hn : l.Nodup) (a : α) (i j : Nat)
    (hi : l[i]? = some a) (hj : l[j]? = some a) : i = j := by
  have hil : i < l.length := by
    by_contra hc; rw [List.getElem?_eq_none (by omega)] at hi; cases hi
  have hjl : j < l.length := by
    by_contra hc; rw [List.getElem?_eq_none (by omega)] at hj; cases hj
  rw [List.getElem?_eq_getElem hil] at hi
  rw [List.getElem?_eq_getElem hjl] at hj
  have : l[i] = l[j] := by
    injection hi with hi; injection hj with hj; rw [hi, hj]
  exact (List.Nodup.getElem_inj_iff hn).1 this

theorem idForPath_token_position (hasher : List Char → Nat) (q : List Entry) (p : List Char)
    (hq : HashOK hasher q) :
    ∃ k : Nat, (paths (idForPath hasher q p true).2)[k]? = some p ∧
      (idForPath hasher q p true).1 = (k : Int) + 1 := by
  by_cases hp : p ∈ paths q
  · obtain ⟨k, hk1, hk2⟩ := idForPath_of_mem hasher q p true hq hp
    exact ⟨k, by rw [hk2]; exact hk1, by rw [hk2]⟩
  · rw [idForPath_of_not_mem hasher q p true hq hp]
    refine ⟨q.length, ?_, by simp⟩
    simp [paths]

theorem registerAll_snd (hasher : List Char → Nat) :
    ∀ (ps : List (List Char)) (q : List Entry),
      (registerAll hasher q ps).2 = runCalls hasher q (ps.map (fun p => (p, true))) := by
  intro ps
  induction ps with
  | nil => intro q; rfl
  | cons p ps ih => intro q; simp only [registerAll, List.map_cons, runCalls]; exact ih _

theorem paths_registerAll (hasher : List Char → Nat) :
    ∀ (ps : List (List Char)) (q : List Entry), HashOK hasher q →
      paths (registerAll hasher q ps).2 =
        paths q ++ (firstOccurrences ps).filter (fun x => decide (x ∉ paths q)) := by
  intro ps
  induction ps with
  | nil => intro q _; simp [registerAll, firstOccurrences]
  | cons p ps ih =>
    intro q hq
    have hq1 := hashOK_idForPath hasher q p true hq
    simp only [registerAll, firstOccurrences]
    rw [ih _ hq1]
    by_cases hp : p ∈ paths q
    · obtain ⟨k, _, hk⟩ := idForPath_of_mem hasher q p true hq hp
      rw [hk]
      simp only [List.filter_cons, hp, not_true_eq_false, decide_False, Bool.false_eq_true,
        if_false, List.filter_filter]
      congr 1
      apply List.filter_congr
      intro x _
      by_cases hx : x ∈ paths q
      · simp [hx]
      · have : x ≠ p := fun h => hx (h ▸ hp)
        simp [hx, this]
    · rw [idForPath_of_not_mem hasher q p true hq hp]
      simp only [if_true, List.filter_cons, hp, not_false_eq_true, decide_True,
        List.filter_filter]
      have : paths (q ++ [Entry.mk p (hasher p)]) = paths q ++ [p] := by simp [paths]
      rw [this, List.append_assoc]
      congr 1
      simp only [List.singleton_append]
      congr 1
      apply List.filter_congr
      intro x _
      by_cases hx : x ∈ paths q <;> by_cases hxp : x = p <;> simp [hx, hxp]

theorem tokens_registerAll (hasher : List Char → Nat) :
    ∀ (ps : List (List Char)) (q : List Entry) (i : Nat) (p : List Char), HashOK hasher q →
      ps[i]? = some p →
      ∃ k : Nat, (paths (registerAll hasher q ps).2)[k]? = some p ∧
        (registerAll hasher q ps).1[i]? = some ((k : Int) + 1) := by
  intro ps
  induction ps with
  | nil => intro q i p _ h; simp at h
  | cons p0 ps ih =>
    intro q i p hq h
    have hq1 := hashOK_idForPath hasher q p0 true hq
    cases i with
    | zero =>
      simp only [List.getElem?_cons_zero, Option.some.injEq] at h
      subst h
      obtain ⟨k, hk1, hk2⟩ := idForPath_token_position hasher q p0 hq
      refine ⟨k, ?_, ?_⟩
      · simp only [registerAll]
        rw [paths_registerAll hasher ps _ hq1]
        have hk : k < (paths (idForPath hasher q p0 true).2).length := by
          by_contra hc; rw [List.getElem?_eq_none (by omega)] at hk1; cases hk1
        rw [List.getElem?_append_left hk]
        exact hk1
      · simp only [registerAll, List.getElem?_cons_zero, hk2]
    | succ j =>
      simp only [List.getElem?_cons_succ] at h
      obtain ⟨k, hk1, hk2⟩ := ih _ j p hq1 h
      exact ⟨k, by simpa only [registerAll] using hk1,
        by simpa only [registerAll, List.getElem?_cons_succ] using hk2⟩

theorem length_tokens_registerAll (hasher : List Char → Nat) :
    ∀ (ps : List (List Char)) (q : List Entry),
      (registerAll hasher q ps).1.length = ps.length := by
  intro ps
  induction ps with
  | nil => intro q; rfl
  | cons p ps ih => intro q; simp only [registerAll, List.length_cons, ih]

theorem mem_firstOccurrences {α : Type} [DecidableEq α] (a : α) :
    ∀ l : List α, a ∈ firstOccurrences l ↔ a ∈ l := by
  intro l
  induction l with
  | nil => simp [firstOccurrences]
  | cons b l ih =>
    simp only [firstOccurrences, List.mem_cons, List.mem_filter, ih, decide_eq_true_eq]
    by_cases h : a = b <;> simp [h]

theorem nodup_firstOccurrences {α : Type} [DecidableEq α] :
    ∀ l : List α, (firstOccurrences l).Nodup := by
  intro l
  induction l with
  | nil => simp [firstOccurrences]
  | cons b l ih =>
    simp only [firstOccurrences, List.nodup_cons, List.mem_filter, decide_eq_true_eq]
    exact ⟨fun h => h.2 rfl, ih.filter _⟩

theorem reachable_registerAll (hasher : List Char → Nat) (ps : List (List Char)) :
    Reachable hasher (registerAll hasher [] ps).2 :=
  ⟨ps.map (fun p => (p, true)), (registerAll_snd hasher ps []).symm⟩

theorem idForPath_twice (hasher : List Char → Nat) (q : List Entry) (p : List Char)
    (hq : HashOK hasher q) (hn : (paths q).Nodup) :
    idForPath hasher (idForPath hasher q p true).2 p true = idForPath hasher q p true := by
  obtain ⟨k, hk1, hk2⟩ := idForPath_token_position hasher q p hq
  have hq1 := hashOK_idForPath hasher q p true hq
  have hn1 := nodup_idForPath hasher q p true hq hn
  have hmem : p ∈ paths (idForPath hasher q p true).2 := List.getElem?_mem hk1
  obtain ⟨k', hk1', hk2'⟩ := idForPath_of_mem hasher _ p true hq1 hmem
  have : k' = k := nodup_index_unique _ hn1 p k' k hk1' hk1
  rw [hk2', this, ← hk2]

theorem pathForID_idForPath (hasher : List Char → Nat) (q : List Entry) (p : List Char) :
    1 ≤ (idForPath hasher q p true).1 ∧
    (idForPath hasher q p true).1 ≤ (idForPath hasher q p true).2.length ∧
    pathForID (idForPath hasher q p true).2 (idForPath hasher q p true).1 = p := by
  cases h : idForPath.scan p (hasher p) q 1 with
  | some t =>
    obtain ⟨h1, h2, e, h3, h4⟩ := scan_some p (hasher p) q 1 t h
    rw [idForPath_of_some hasher q p true t h]
    refine ⟨h1, by simp only; omega, ?_⟩
    have := pathForID_get q (t - 1).toNat e h3
    have ht : (((t - 1).toNat : Nat) : Int) + 1 = t := by omega
    rw [ht, h4] at this
    exact this
  | none =>
    rw [idForPath_of_none hasher q p true h]
    simp only [if_true, List.length_append, List.length_singleton]
    refine ⟨by omega, by push_cast; omega, ?_⟩
    exact pathForID_get (q ++ [Entry.mk p (hasher p)]) q.length (Entry.mk p (hasher p))
      (by simp)

theorem runCalls_extends (hasher : List Char → Nat) :
    ∀ (calls : List (List Char × Bool)) (q : List Entry),
      ∃ ext, runCalls hasher q calls = q ++ ext := by
  intro calls
  induction calls with
  | nil => intro q; exact ⟨[], by simp [runCalls]⟩
  | cons c cs ih =>
    intro q
    obtain ⟨ext, hext⟩ := ih (idForPath hasher q c.1 c.2).2
    simp only [runCalls]
    rcases idForPath_queue hasher q c.1 c.2 with h | h
    · rw [hext, h]; exact ⟨ext, rfl⟩
    · rw [hext, h]; exact ⟨Entry.mk c.1 (hasher c.1) :: ext, by simp⟩

/-! ## Lemmas on `find_last_of` -/

theorem find_last_of_eq_none (chars : List Char) :
    ∀ s : List Char, (∀ x ∈ s, x ∉ chars) → find_last_of s chars = none := by
  intro s
  induction s with
  | nil => intro _; rfl
  | cons a s ih =>
    intro h
    have ha : a ∉ chars := h a (List.mem_cons_self _ _)
    simp only [find_last_of, ih (fun x hx => h x (List.mem_cons_of_mem _ hx)), if_neg ha]

theorem find_last_of_append_cons (chars : List Char) (c : Char) (suf : List Char)
    (hc : c ∈ chars) (hsuf : ∀ x ∈ suf, x ∉ chars) :
    ∀ pre : List Char, find_last_of (pre ++ c :: suf) chars = some pre.length := by
  intro pre
  induction pre with
  | nil => simp only [List.nil_append, find_last_of, find_last_of_eq_none chars suf hsuf,
      if_pos hc, List.length_nil]
  | cons a pre ih =>
    show find_last_of (a :: (pre ++ c :: suf)) chars = some (pre.length + 1)
    simp only [find_last_of, ih]

theorem find_last_of_some (chars : List Char) :
    ∀ (s : List Char) (p : Nat), find_last_of s chars = some p →
      ∃ c, c ∈ chars ∧ s = s.take p ++ c :: s.drop (p + 1) ∧
        ∀ x ∈ s.drop (p + 1), x ∉ chars := by
  intro s
  induction s with
  | nil => intro p h; simp [find_last_of] at h
  | cons a s ih =>
    intro p h
    simp only [find_last_of] at h
    cases hs : find_last_of s chars with
    | some p' =>
      rw [hs] at h
      simp only [Option.some.injEq] at h
      subst h
      obtain ⟨c, hc, hsplit, hno⟩ := ih p' hs
      refine ⟨c, hc, ?_, ?_⟩
      · simp only [List.take_succ_cons, List.drop_succ_cons, List.cons_append]
        rw [← hsplit]
      · simpa only [List.drop_succ_cons] using hno
    | none =>
      rw [hs] at h
      by_cases ha : a ∈ chars
      · rw [if_pos ha] at h
        simp only [Option.some.injEq] at h
        subst h
        refine ⟨a, ha, by simp, ?_⟩
        intro x hx
        simp only [zero_add, List.drop_succ_cons, List.drop_zero] at hx
        intro hxc
        have : find_last_of s chars ≠ none := by
          clear ih hs
          induction s with
          | nil => cases hx
          | cons b s ih2 =>
            simp only [find_last_of]
            cases hs2 : find_last_of s chars with
            | some _ => simp
            | none =>
              rcases List.mem_cons.1 hx with hb | hb
              · subst hb; simp [hxc]
              · exact absurd hs2 (ih2 hb)
        exact this hs
      · rw [if_neg ha] at h; cases h

theorem find_last_of_none_imp (chars : List Char) (s : List Char)
    (h : find_last_of s chars = none) : ∀ x ∈ s, x ∉ chars := by
  induction s with
  | nil => intro x hx; cases hx
  | cons a s ih =>
    simp only [find_last_of] at h
    cases hs : find_last_of s chars with
    | some p => rw [hs] at h; cases h
    | none =>
      rw [hs] at h
      intro x hx
      rcases List.mem_cons.1 hx with hxa | hxs
      · subst hxa
        intro hx'
        rw [if_pos hx'] at h
        cases h
      · exact ih hs x hxs

theorem exists_last_split (chars : List Char) (s : List Char) (h : ∃ x ∈ s, x ∈ chars) :
    ∃ (pre : List Char) (c : Char) (suf : List Char),
      s = pre ++ c :: suf ∧ c ∈ chars ∧ ∀ x ∈ suf, x ∉ chars := by
  cases hf : find_last_of s chars with
  | none =>
    obtain ⟨x, hx, hxc⟩ := h
    exact absurd hxc (find_last_of_none_imp chars s hf x hx)
  | some p =>
    obtain ⟨c, hc, hsplit, hno⟩ := find_last_of_some chars s p hf
    exact ⟨s.take p, c, s.drop (p + 1), hsplit, hc, hno⟩

theorem split_append_cons (pre suf : List Char) (hsuf : '/' ∉ suf) :
    FSMakeFSSpec.split (pre ++ '/' :: suf) = (pre ++ ['/'], suf) := by
  have h := find_last_of_append_cons ['/'] '/' suf (List.mem_singleton.2 rfl)
    (fun x hx hx' => hsuf (List.mem_singleton.1 hx' ▸ hx)) pre
  simp only [FSMakeFSSpec.split, h]
  have h1 : (pre ++ '/' :: suf).take (pre.length + 1) = pre ++ ['/'] := by
    rw [List.take_append_eq_append_take]
    simp
  have h2 : (pre ++ '/' :: suf).drop (pre.length + 1) = suf := by
    rw [List.drop_append_eq_append_drop]
    simp
  rw [h1, h2]

theorem FSMakeFSSpec_realpath_none (hasher : List Char → Nat)
    (realpath : List Char → Option (List Char)) (q : List Entry) (vRefNum dirID : Nat)
    (sname : List Char) (spec : Nat)
    (habs : sname.head? = some '/' ∨ (vRefNum = 0 ∧ dirID = 0))
    (hreal : realpath sname = none) :
    FSMakeFSSpec hasher realpath q vRefNum dirID sname spec =
      Outcome.returned (toU16 mFulErr) q [] := by
  have hcond : ((if sname.length ≠ 0 then decide (sname.head? = some '/') else false) = true ∨
      (vRefNum = 0 ∧ dirID = 0)) := by
    rcases habs with h | h
    · left
      cases sname with
      | nil => simp at h
      | cons a l => simpa using h
    · exact Or.inr h
  simp only [FSMakeFSSpec, if_pos hcond, hreal]

/-! ## Lemmas on the name classifier -/

theorem extension_no_separator (s : List Char) (h : ∀ x ∈ s, x ∉ ['.', '/', ':']) :
    extension s = [] := by
  simp only [extension, find_last_of_eq_none _ s h]

theorem extension_append_cons (pre : List Char) (c : Char) (suf : List Char)
    (hc : c ∈ ['.', '/', ':']) (hsuf : ∀ x ∈ suf, x ∉ ['.', '/', ':']) :
    extension (pre ++ c :: suf) = if c = '.' then suf.map tolower else [] := by
  have hf := find_last_of_append_cons ['.', '/', ':'] c suf hc hsuf pre
  have hget : (pre ++ c :: suf)[pre.length]? = some c := by
    rw [List.getElem?_append_right (le_refl _), Nat.sub_self, List.getElem?_cons_zero]
  have hdrop : (pre ++ c :: suf).drop (pre.length + 1) = suf := by
    rw [List.drop_append_eq_append_drop]
    simp
  simp only [extension, hf, hget, hdrop]
  by_cases hdot : c = '.'
  · subst hdot
    simp only [ne_eq, not_true_eq_false, if_false, if_true]
    cases suf with
    | nil => simp
    | cons a l => simp
  · simp [hdot]

theorem basename_spec (s : List Char) :
    ∃ pre, s = pre ++ basename s ∧ ∀ x ∈ basename s, x ∉ ['/', ':'] := by
  cases hf : find_last_of s ['/', ':'] with
  | none =>
    refine ⟨[], ?_, ?_⟩
    · simp only [basename, hf, List.nil_append]
    · simp only [basename, hf]
      exact find_last_of_none_imp _ s hf
  | some p =>
    obtain ⟨c, _, hsplit, hno⟩ := find_last_of_some _ s p hf
    refine ⟨s.take p ++ [c], ?_, ?_⟩
    · simp only [basename, hf, List.append_assoc, List.singleton_append]
      exact hsplit
    · simp only [basename, hf]
      exact hno

theorem getLast?_append_cons_dot (pre suf : List Char) (hsuf : '.' ∉ suf) :
    ((pre ++ '.' :: suf).getLast? = some '.' ↔ suf = []) := by
  cases suf with
  | nil => simp
  | cons a l =>
    have hne : a :: l ≠ [] := List.cons_ne_nil a l
    have h1 : pre ++ '.' :: a :: l = (pre ++ ['.']) ++ (a :: l) := by simp
    rw [h1, List.getLast?_append_of_ne_nil _ hne]
    constructor
    · intro h
      exact absurd (List.mem_of_getLast?_eq_some h) hsuf
    · intro h; cases h

/-! ## Lemmas on the Finder-info blob -/

theorem Hex_getD (n : Nat) (h : n < 16) : Hex.getD n 0 = hexDigitUpper n := by
  revert n
  decide

theorem shiftRight_four_lt (b : Nat) (h : b < 256) : b >>> 4 < 16 := by
  rw [Nat.shiftRight_eq_div_pow]
  omega

theorem and_fifteen_lt (b : Nat) : b &&& 0x0f < 16 := by
  have := @Nat.and_le_right b 0x0f
  omega

/-! ## Lemmas on `get_file_info` -/

theorem ldiff_511 (m : Nat) : Nat.ldiff m 511 = m / 512 * 512 := by
  apply Nat.eq_of_testBit_eq
  intro i
  have h511 : (511 : Nat) = 2 ^ 9 - 1 := by norm_num
  have h512 : (512 : Nat) = 2 ^ 9 := by norm_num
  rw [Nat.testBit_ldiff, h511, Nat.testBit_two_pow_sub_one, h512, Nat.mul_comm,
    Nat.testBit_mul_pow_two, ← Nat.shiftRight_eq_div_pow, Nat.testBit_shiftRight]
  by_cases h : i < 9
  · simp [h]
  · have h9 : 9 ≤ i := by omega
    simp [h, h9, Nat.add_sub_cancel' h9]

theorem toInt64_eq (x : Int) (h1 : -9223372036854775808 ≤ x)
    (h2 : x ≤ 9223372036854775807) : toInt64 x = x := by
  unfold toInt64
  omega

theorem roundUp512_eq (x : Int) (hx : 0 ≤ x) (hmax : x ≤ 9223372036854775296) :
    roundUp512 x = (x + 511) / 512 * 512 := by
  have h0 : 0 ≤ x + 511 := by omega
  obtain ⟨m, hm⟩ := Int.eq_ofNat_of_zero_le h0
  unfold roundUp512
  rw [toInt64_eq (x + 511) (by omega) (by omega), hm]
  have : Int.land (m : Int) (~~~(511 : Int)) = ((Nat.ldiff m 511 : Nat) : Int) := rfl
  rw [this, ldiff_511]
  push_cast
  rfl

theorem linksOf_eq (n : Nat) (h : n ≤ 2147483649) : linksOf n = (n : Int) - 2 := by
  unfold linksOf toInt32
  split <;> omega

theorem get_file_info_directory (macos_error_from_errno : Nat → Int)
    (stat : List Char → Except Nat Stat) (finderInfo : List Char → Option (List Nat))
    (rfork : List Char → Option (Option Int)) (extended : Bool) (path_name : List Char)
    (fi : file_info) (st : Stat) (hst : stat path_name = Except.ok st)
    (hdir : st.S_ISDIR = true) :
    get_file_info macos_error_from_errno stat finderInfo rfork extended path_name fi =
      (noErr, { fi with
        create_date := unix_to_mac st.st_ctime
        modify_date := unix_to_mac st.st_mtime
        backup_date := 0
        type := FileType.directory
        entry_count :=
          if (if linksOf st.st_nlink < 0 then 0 else linksOf st.st_nlink) > 65535 then 65535
          else (if linksOf st.st_nlink < 0 then 0 else linksOf st.st_nlink) }) := by
  simp only [get_file_info, hst, hdir, if_true]

theorem get_file_info_file (macos_error_from_errno : Nat → Int)
    (stat : List Char → Except Nat Stat) (finderInfo : List Char → Option (List Nat))
    (rfork : List Char → Option (Option Int)) (extended : Bool) (path_name : List Char)
    (fi : file_info) (st : Stat) (hst : stat path_name = Except.ok st)
    (hdir : st.S_ISDIR = false) :
    get_file_info macos_error_from_errno stat finderInfo rfork extended path_name fi =
      (noErr, file_info.mk FileType.file fi.entry_count (unix_to_mac st.st_ctime)
        (unix_to_mac st.st_mtime) 0 st.st_size (roundUp512 st.st_size)
        (if rforksize rfork path_name > 0 then roundUp512 (rforksize rfork path_name) else 0)
        (if rforksize rfork path_name > 0 then rforksize rfork path_name else 0)
        (memcpy fi.finder_info (get_finder_info finderInfo path_name extended).2
          (get_finder_info finderInfo path_name extended).2.length)) := by
  unfold get_file_info
  rw [hst]
  simp only [hdir, Bool.false_eq_true, if_false]
  by_cases h : rforksize rfork path_name > 0
  · simp only [h, if_true]
  · simp only [h, if_false]

theorem get_file_info_resource_sizes (macos_error_from_errno : Nat → Int)
    (stat : List Char → Except Nat Stat) (finderInfo : List Char → Option (List Nat))
    (rfork : List Char → Option (Option Int)) (extended : Bool) (path_name : List Char)
    (fi : file_info) (st : Stat) (hst : stat path_name = Except.ok st)
    (hdir : st.S_ISDIR = false) :
    (∀ r : Int, rfork path_name = some (some r) → 0 < r → r < 4294967296 →
      (get_file_info macos_error_from_errno stat finderInfo rfork extended path_name
        fi).2.resource_physical_size = r ∧
      (get_file_info macos_error_from_errno stat finderInfo rfork extended path_name
        fi).2.resource_logical_size = (r + 511) / 512 * 512) ∧
    ((rfork path_name = none ∨ rfork path_name = some none) →
      (get_file_info macos_error_from_errno stat finderInfo rfork extended path_name
        fi).2.resource_physical_size = 0 ∧
      (get_file_info macos_error_from_errno stat finderInfo rfork extended path_name
        fi).2.resource_logical_size = 0) := by
  rw [get_file_info_file macos_error_from_errno stat finderInfo rfork extended path_name
    fi st hst hdir]
  constructor
  · intro r hr h0 h1
    have hsz : rforksize rfork path_name = r := by
      simp only [rforksize, hr]
      omega
    simp only [hsz, gt_iff_lt, h0, if_true, roundUp512_eq r (le_of_lt h0) (by omega),
      and_self]
  · intro h
    have hsz : rforksize rfork path_name = 0 := by
      rcases h with h | h <;> simp only [rforksize, h]
    simp only [hsz, gt_iff_lt, lt_self_iff_false, if_false, and_self]

theorem get_finder_info_status (finderInfo : List Char → Option (List Nat))
    (path_name : List Char) (extended : Bool) :
    (get_finder_info finderInfo path_name extended).1 = 0 := by
  unfold get_finder_info
  cases finderInfo path_name with
  | none => rfl
  | some data =>
    simp only
    split <;> rfl

theorem is_binary_file_eq (finderInfo : List Char → Option (List Nat)) (path_name : List Char)
    (ftype ctype : Nat) (hf : ftype ≠ fourCC (bytesOf "BINA")) :
    is_binary_file finderInfo path_name ftype ctype = is_text_file_internal path_name := by
  have h1 : ¬ (ftype &&& 0xf0ff = fourCC [0x42, 0x00, 0x20, 0x20]) := by
    intro h
    have hle : ftype &&& 0xf0ff ≤ 0xf0ff := Nat.and_le_right
    rw [h] at hle
    revert hle
    decide
  have h2 : ¬ (ftype &&& 0xf000 = fourCC (bytesOf "p")) := by
    intro h
    have h3 : (ftype &&& 0xf000) &&& 0x70 = 0 := by
      rw [Nat.and_assoc]
      have : (0xf000 : Nat) &&& 0x70 = 0 := by decide
      rw [this, Nat.and_zero]
    rw [h] at h3
    revert h3
    decide
  simp only [is_binary_file, get_finder_info_ftype_ctype, get_finder_info_status, ne_eq,
    not_true_eq_false, if_false, if_true, h1, h2, hf, noErr]
  split <;> rfl

/-! ## Lemmas on `FSpSetFInfo` -/

theorem memcpy_basic_region (buffer b : List Nat) (hb : b.length = 16)
    (hbuf : buffer.length = 32) : (memcpy buffer b 16).take 32 = b ++ buffer.drop 16 := by
  have h1 : b.take 16 = b := List.take_of_length_le (by omega)
  unfold memcpy
  rw [h1]
  exact List.take_of_length_le (by simp only [List.length_append, List.length_drop]; omega)

theorem read_zero_buffer (data : List Nat) (h : data.length ≤ 32) :
    (read data (List.replicate 32 0) 32).2 = data ++ List.replicate (32 - data.length) 0 := by
  have h1 : data.take 32 = data := List.take_of_length_le h
  simp only [read, memcpy, h1, List.take_of_length_le (le_refl _), List.drop_replicate]

theorem FSpSetFInfo_of_ok (errno_to_oserr : Nat → Int) (getxattr : List Char → XattrProbe)
    (setxattr : List Char → List Nat → Option Nat) (q : List Entry) (parentID : Int)
    (leaf : List Char) (b : List Nat) (hb : b.length = 16) (data : List Nat)
    (hprobe : getxattr (FSpPath q parentID leaf) = XattrProbe.ok data)
    (hlen : data.length ≤ 32) :
    (FSpSetFInfo errno_to_oserr getxattr setxattr q parentID leaf b).2 =
      some (FSpPath q parentID leaf,
        b ++ (data ++ List.replicate (32 - data.length) 0).drop 16) := by
  have hbuf : (data ++ List.replicate (32 - data.length) 0).length = 32 := by
    simp only [List.length_append, List.length_replicate]; omega
  simp only [FSpSetFInfo, hprobe, read_zero_buffer data hlen,
    memcpy_basic_region _ b hb hbuf]
  split <;> rfl

theorem FSpSetFInfo_of_fail (errno_to_oserr : Nat → Int) (getxattr : List Char → XattrProbe)
    (setxattr : List Char → List Nat → Option Nat) (q : List Entry) (parentID : Int)
    (leaf : List Char) (b : List Nat) (hb : b.length = 16) (e : Nat)
    (hprobe : getxattr (FSpPath q parentID leaf) = XattrProbe.fail e)
    (h1 : e ≠ ENOENT) (h2 : e ≠ EACCES) :
    (FSpSetFInfo errno_to_oserr getxattr setxattr q parentID leaf b).2 =
      some (FSpPath q parentID leaf, b ++ List.replicate 16 0) := by
  have hbuf : (List.replicate 32 (0 : Nat)).length = 32 := List.length_replicate _ _
  simp only [FSpSetFInfo, hprobe, h1, h2, or_self, if_false,
    memcpy_basic_region _ b hb hbuf, List.drop_replicate]
  split <;> rfl

theorem FSpSetFInfo_status (errno_to_oserr : Nat → Int) (getxattr : List Char → XattrProbe)
    (setxattr : List Char → List Nat → Option Nat) (q : List Entry) (parentID : Int)
    (leaf : List Char) (b v : List Nat) (p : List Char)
    (hcall : (FSpSetFInfo errno_to_oserr getxattr setxattr q parentID leaf b).2 = some (p, v))
    (hok : setxattr p v = none) :
    (FSpSetFInfo errno_to_oserr getxattr setxattr q parentID leaf b).1 = 0 := by
  have key : ∀ (P : List Char) (V : List Nat),
      ((match setxattr P V with
        | some errno => (toU16 (errno_to_oserr errno), some (P, V))
        | none => ((0 : Int), some (P, V))) : Int × Option (List Char × List Nat)).2
        = some (p, v) →
      ((match setxattr P V with
        | some errno => (toU16 (errno_to_oserr errno), some (P, V))
        | none => ((0 : Int), some (P, V))) : Int × Option (List Char × List Nat)).1 = 0 := by
    intro P V h
    cases hs : setxattr P V with
    | none => rfl
    | some e' =>
      rw [hs] at h
      simp only [Option.some.injEq, Prod.mk.injEq] at h
      rw [h.1, h.2, hok] at hs
      cases hs
  cases hp : getxattr (FSpPath q parentID leaf) with
  | fail e =>
    simp only [FSpSetFInfo, hp] at hcall ⊢
    by_cases he : e = ENOENT ∨ e = EACCES
    · rw [if_pos he] at hcall; cases hcall
    · rw [if_neg he] at hcall ⊢
      exact key _ _ hcall
  | ok data =>
    simp only [FSpSetFInfo, hp] at hcall ⊢
    exact key _ _ hcall

/-! ## The registry claims -/

/-- C1: starting from the empty registry, after any sequence `ps` of `idForPath(p, true)`
calls the table holds exactly the distinct paths of `ps` in first-registration order, the
call for the k-th distinct path returns token k (so equal paths get equal tokens), asking
again for a path returns the same token and leaves the table as it is; with the scenario
`/tmp/vol/`, `/tmp/vol/`, `/tmp/vol/sub/` giving tokens 1, 1, 2. -/
theorem idForPath_registration_order (hasher : List Char → Nat) (ps : List (List Char)) :
    paths (registerAll hasher [] ps).2 = firstOccurrences ps ∧
    (registerAll hasher [] ps).2.length = (firstOccurrences ps).length ∧
    (registerAll hasher [] ps).1.length = ps.length ∧
    (∀ (i k : Nat) (p : List Char), ps[i]? = some p → (firstOccurrences ps)[k]? = some p →
      (registerAll hasher [] ps).1[i]? = some ((k : Int) + 1)) ∧
    (∀ i j : Nat, i < ps.length → ps[i]? = ps[j]? →
      (registerAll hasher [] ps).1[i]? = (registerAll hasher [] ps).1[j]?) ∧
    (∀ p : List Char,
      idForPath hasher (idForPath hasher (registerAll hasher [] ps).2 p true).2 p true =
        idForPath hasher (registerAll hasher [] ps).2 p true) ∧
    (firstOccurrences ps).Nodup ∧ (∀ p, p ∈ firstOccurrences ps ↔ p ∈ ps) ∧
    registerAll hasher [] ["/tmp/vol/".toList, "/tmp/vol/".toList, "/tmp/vol/sub/".toList] =
      ([1, 1, 2], [Entry.mk "/tmp/vol/".toList (hasher "/tmp/vol/".toList),
        Entry.mk "/tmp/vol/sub/".toList (hasher "/tmp/vol/sub/".toList)]) := by
  have h0 : HashOK hasher [] := fun _ he => absurd he (List.not_mem_nil _)
  have hpaths : paths (registerAll hasher [] ps).2 = firstOccurrences ps := by
    rw [paths_registerAll hasher ps [] h0]
    simp [paths]
  have htok : ∀ (i k : Nat) (p : List Char), ps[i]? = some p →
      (firstOccurrences ps)[k]? = some p →
      (registerAll hasher [] ps).1[i]? = some ((k : Int) + 1) := by
    intro i k p hi hk
    obtain ⟨k', hk1, hk2⟩ := tokens_registerAll hasher ps [] i p h0 hi
    rw [hpaths] at hk1
    have : k' = k := nodup_index_unique _ (nodup_firstOccurrences ps) p k' k hk1 hk
    rw [hk2, this]
  refine ⟨hpaths, ?_, length_tokens_registerAll hasher ps [], htok, ?_, ?_,
    nodup_firstOccurrences ps, fun p => mem_firstOccurrences p ps, ?_⟩
  · rw [← hpaths]; simp [paths]
  · intro i j hi hij
    have hpi : ps[i]? = some ps[i] := List.getElem?_eq_getElem hi
    have hmem : ps[i] ∈ firstOccurrences ps :=
      (mem_firstOccurrences _ ps).2 (List.getElem_mem hi)
    obtain ⟨k, hk, hk'⟩ := List.getElem_of_mem hmem
    have hk2 : (firstOccurrences ps)[k]? = some ps[i] := by
      rw [List.getElem?_eq_getElem hk, hk']
    rw [htok i k _ hpi hk2, htok j k _ (hij ▸ hpi) hk2]
  · intro p
    have hr := reachable_registerAll hasher ps
    exact idForPath_twice hasher _ p (hashOK_of_reachable hasher _ hr)
      (nodup_of_reachable hasher _ hr)
  · simp [registerAll, idForPath, idForPath.scan]

/-- C2: in every registry state, a call `idForPath(p, insert)` keeps every token
`1 ≤ t ≤ old count` on the path it had, never lowers the entry count, and raises it by
exactly one when `p` was absent and `insert` is true, leaving it unchanged otherwise. -/
theorem idForPath_never_removes (hasher : List Char → Nat) (q : List Entry)
    (hq : Reachable hasher q) (p : List Char) (ins : Bool) :
    (∀ t : Int, 1 ≤ t → t ≤ q.length →
      pathForID (idForPath hasher q p ins).2 t = pathForID q t) ∧
    q.length ≤ (idForPath hasher q p ins).2.length ∧
    (idForPath hasher q p ins).2.length =
      (if p ∉ paths q ∧ ins = true then q.length + 1 else q.length) := by
  have hh := hashOK_of_reachable hasher q hq
  by_cases hp : p ∈ paths q
  · obtain ⟨k, _, hk⟩ := idForPath_of_mem hasher q p ins hh hp
    rw [hk]
    simp [hp]
  · rw [idForPath_of_not_mem hasher q p ins hh hp]
    cases ins
    · simp
    · simp only [if_true, hp, not_false_eq_true, and_self, List.length_append,
        List.length_singleton, Nat.le_add_right, and_true]
      intro t h1 h2
      exact pathForID_append q _ t h1 h2

/-- Instance of C2 at the registry holding `/tmp/vol/`, asked to insert `/tmp/vol/sub/`. -/
theorem idForPath_never_removes_witness :
    Reachable (fun s => s.length) [Entry.mk "/tmp/vol/".toList 9] ∧
    (∀ t : Int, 1 ≤ t → t ≤ 1 →
      pathForID (idForPath (fun s => s.length) [Entry.mk "/tmp/vol/".toList 9]
        "/tmp/vol/sub/".toList true).2 t = pathForID [Entry.mk "/tmp/vol/".toList 9] t) ∧
    (idForPath (fun s => s.length) [Entry.mk "/tmp/vol/".toList 9]
        "/tmp/vol/sub/".toList true).2.length = 2 :=
  have hr : Reachable (fun s => s.length) [Entry.mk "/tmp/vol/".toList 9] :=
    ⟨[("/tmp/vol/".toList, true)], by decide⟩
  ⟨hr, (idForPath_never_removes (fun s => s.length) _ hr "/tmp/vol/sub/".toList true).1,
    by decide⟩

/-- C3: for a table of N entries and any token `id`, `pathForID(id)` is the empty string when
`id ≤ 0` or `id > N`, and otherwise the path stored at 1-based position `id`; with two entries
`pathForID(1)` is `/tmp/vol/` and `pathForID(99)` is empty. -/
theorem pathForID_bounds (q : List Entry) (id : Int) :
    ((id ≤ 0 ∨ id > q.length) → pathForID q id = []) ∧
    (1 ≤ id → id ≤ q.length →
      ∃ e, q[(id - 1).toNat]? = some e ∧ pathForID q id = e.path) ∧
    (∀ h1 h2 : Nat,
      pathForID [Entry.mk "/tmp/vol/".toList h1, Entry.mk "/tmp/vol/sub/".toList h2] 1 =
        "/tmp/vol/".toList ∧
      pathForID [Entry.mk "/tmp/vol/".toList h1, Entry.mk "/tmp/vol/sub/".toList h2] 99 =
        []) := by
  refine ⟨?_, ?_, fun h1 h2 => ⟨by simp [pathForID], by simp [pathForID]⟩⟩
  · intro h
    unfold pathForID
    rcases h with h | h
    · rw [if_pos (by omega)]
    · by_cases h' : id < 1
      · rw [if_pos h']
      · rw [if_neg h', if_pos h]
  · intro h1 h2
    have hlt : (id - 1).toNat < q.length := by omega
    refine ⟨q[(id - 1).toNat], List.getElem?_eq_getElem hlt, ?_⟩
    have := pathForID_get q (id - 1).toNat _ (List.getElem?_eq_getElem hlt)
    have hid : (((id - 1).toNat : Nat) : Int) + 1 = id := by omega
    rw [hid] at this
    exact this

/-- C4: in every registry state, `idForPath(p, false)` leaves the table unchanged, returns -1
exactly when `p` is not stored, and otherwise returns the 1-based position of `p`, which is
also the token `idForPath(p, true)` returns. -/
theorem idForPath_lookup_only (hasher : List Char → Nat) (q : List Entry)
    (hq : Reachable hasher q) (p : List Char) :
    (idForPath hasher q p false).2 = q ∧
    ((idForPath hasher q p false).1 = -1 ↔ p ∉ paths q) ∧
    (p ∈ paths q →
      (∀ k : Nat, (paths q)[k]? = some p → (idForPath hasher q p false).1 = (k : Int) + 1) ∧
      pathForID q (idForPath hasher q p false).1 = p ∧
      (idForPath hasher q p false).1 = (idForPath hasher q p true).1) := by
  have hh := hashOK_of_reachable hasher q hq
  have hn := nodup_of_reachable hasher q hq
  by_cases hp : p ∈ paths q
  · obtain ⟨k, hk1, hk2⟩ := idForPath_of_mem hasher q p false hh hp
    obtain ⟨k', hk1', hk2'⟩ := idForPath_of_mem hasher q p true hh hp
    have hkk : k' = k := nodup_index_unique _ hn p k' k hk1' hk1
    rw [hk2, hk2', hkk]
    refine ⟨rfl, ?_, fun _ => ⟨?_, ?_, rfl⟩⟩
    · simp only [hp, not_true_eq_false, iff_false]
      omega
    · intro j hj
      rw [nodup_index_unique _ hn p j k hj hk1]
    · simp only [paths, List.getElem?_map] at hk1
      cases he : q[k]? with
      | none => rw [he] at hk1; cases hk1
      | some e =>
        rw [he] at hk1
        simp only [Option.map_some', Option.some.injEq] at hk1
        rw [← hk1]
        exact pathForID_get q k e he
  · rw [idForPath_of_not_mem hasher q p false hh hp]
    simp [hp]

/-- Instance of C4 at the registry holding `/tmp/vol/`, looking that path up. -/
theorem idForPath_lookup_only_witness :
    Reachable (fun s => s.length) [Entry.mk "/tmp/vol/".toList 9] ∧
    (idForPath (fun s => s.length) [Entry.mk "/tmp/vol/".toList 9]
      "/tmp/vol/".toList false).2 = [Entry.mk "/tmp/vol/".toList 9] ∧
    (idForPath (fun s => s.length) [Entry.mk "/tmp/vol/".toList 9]
      "/tmp/vol/".toList false).1 = 1 :=
  have hr : Reachable (fun s => s.length) [Entry.mk "/tmp/vol/".toList 9] :=
    ⟨[("/tmp/vol/".toList, true)], by decide⟩
  ⟨hr, (idForPath_lookup_only (fun s => s.length) _ hr "/tmp/vol/".toList).1, by decide⟩

/-! ## The make-identifier claims -/

/-- C5: when `realpath` yields a canonical path `c` containing `/`, `FSMakeFSSpec` returns 0,
splits `c` into a parent ending in `/` and a leaf free of `/` with `parent ++ leaf = c`,
registers the parent under the token `t` it writes to the FSSpec together with the leaf, and
the path `pathForID(t) ++ leaf` that `FSpGetFInfo` / `FSpSetFInfo` rebuild from that token and
leaf is `c`, right away and after any further `idForPath` calls. -/
theorem FSMakeFSSpec_round_trip (hasher : List Char → Nat)
    (realpath : List Char → Option (List Char)) (q : List Entry) (vRefNum dirID : Nat)
    (sname : List Char) (spec : Nat) (c : List Char)
    (habs : sname.head? = some '/' ∨ (vRefNum = 0 ∧ dirID = 0))
    (hreal : realpath sname = some c) (hslash : '/' ∈ c) :
    ∃ (parent leaf : List Char) (t : Int) (q' : List Entry),
      FSMakeFSSpec hasher realpath q vRefNum dirID sname spec =
        Outcome.returned 0 q'
          [MemWrite.word vRefNum spec, MemWrite.long t (spec + 2),
            MemWrite.pstring (spec + 6) leaf] ∧
      parent ++ leaf = c ∧ parent.getLast? = some '/' ∧ '/' ∉ leaf ∧
      idForPath hasher q parent true = (t, q') ∧
      FSpPath q' t leaf = c ∧
      ∀ calls : List (List Char × Bool), FSpPath (runCalls hasher q' calls) t leaf = c := by
  obtain ⟨pre, ch, suf, hc, hch, hsuf⟩ :=
    exists_last_split ['/'] c ⟨'/', hslash, List.mem_singleton.2 rfl⟩
  have hch' : ch = '/' := List.mem_singleton.1 hch
  subst hch'
  have hsuf' : '/' ∉ suf := fun h => hsuf '/' h (List.mem_singleton.2 rfl)
  have hsplit := split_append_cons pre suf hsuf'
  rw [← hc] at hsplit
  have hcond : ((if sname.length ≠ 0 then decide (sname.head? = some '/') else false) = true ∨
      (vRefNum = 0 ∧ dirID = 0)) := by
    rcases habs with h | h
    · left
      cases sname with
      | nil => simp at h
      | cons a l => simpa using h
    · exact Or.inr h
  obtain ⟨h1, h2, h3⟩ := pathForID_idForPath hasher q (pre ++ ['/'])
  refine ⟨pre ++ ['/'], suf, (idForPath hasher q (pre ++ ['/']) true).1,
    (idForPath hasher q (pre ++ ['/']) true).2, ?_, ?_, ?_, hsuf', rfl, ?_, ?_⟩
  · simp only [FSMakeFSSpec, if_pos hcond, hreal, hsplit, Nat.add_zero]
  · rw [hc]; simp
  · simp
  · simp only [FSpPath, h3, hc, List.append_assoc, List.singleton_append]
  · intro calls
    obtain ⟨ext, hext⟩ := runCalls_extends hasher calls (idForPath hasher q (pre ++ ['/']) true).2
    rw [hext]
    simp only [FSpPath, pathForID_append _ ext _ h1 h2, h3, hc, List.append_assoc,
      List.singleton_append]

/-- Instance of C5: `/tmp/vol/a.c` exists, the registry is empty, no further calls follow. -/
theorem FSMakeFSSpec_round_trip_witness :
    ∃ (parent leaf : List Char) (t : Int) (q' : List Entry),
      FSMakeFSSpec (fun s => s.length) (fun s => some s) [] 0 0 "/tmp/vol/a.c".toList 4096 =
        Outcome.returned 0 q'
          [MemWrite.word 0 4096, MemWrite.long t (4096 + 2),
            MemWrite.pstring (4096 + 6) leaf] ∧
      parent ++ leaf = "/tmp/vol/a.c".toList ∧ parent.getLast? = some '/' ∧ '/' ∉ leaf ∧
      idForPath (fun s => s.length) [] parent true = (t, q') ∧
      FSpPath q' t leaf = "/tmp/vol/a.c".toList ∧
      ∀ calls : List (List Char × Bool),
        FSpPath (runCalls (fun s => s.length) q' calls) t leaf = "/tmp/vol/a.c".toList :=
  FSMakeFSSpec_round_trip (fun s => s.length) (fun s => some s) [] 0 0 "/tmp/vol/a.c".toList
    4096 "/tmp/vol/a.c".toList (Or.inl (by decide)) rfl (by decide)

/-- C6: at the name `/nonexistent`, for which `realpath` fails, with volume reference and
directory token zero and an empty registry, `FSMakeFSSpec` registers nothing and writes
nothing, and the status it returns is `mFulErr` (65495 as `uint16_t`), which is not `fnfErr`
(65493). -/
theorem FSMakeFSSpec_realpath_failure_status :
    FSMakeFSSpec (fun s => s.length) (fun _ => none) [] 0 0 "/nonexistent".toList 4096 =
      Outcome.returned (toU16 mFulErr) [] [] ∧
    toU16 mFulErr = 65495 ∧ toU16 fnfErr = 65493 ∧
    FSMakeFSSpec (fun s => s.length) (fun _ => none) [] 0 0 "/nonexistent".toList 4096 ≠
      Outcome.returned (toU16 fnfErr) [] [] := by
  decide

/-! ## The classifier claims -/

/-- C7: the name classifier is a total function into text, binary and unknown, decided by
the two source predicates; `foo.c` and `m16.foo` are text, `foo.o` is binary, `README` is
unknown; the extension is the lower-cased part after the last of `.`, `/`, `:` when that
separator is a `.` and is empty otherwise, so `FOO.C` is text and `dir.c/README` unknown. -/
theorem classify_by_name_total :
    (∀ s : List Char,
      (classify_by_name s = Classification.text ∧ is_text_file_internal s = true) ∨
      (classify_by_name s = Classification.binary ∧ is_text_file_internal s = false ∧
        is_binary_file_internal s = true) ∨
      (classify_by_name s = Classification.unknown ∧ is_text_file_internal s = false ∧
        is_binary_file_internal s = false)) ∧
    classify_by_name "foo.c".toList = Classification.text ∧
    classify_by_name "foo.o".toList = Classification.binary ∧
    classify_by_name "README".toList = Classification.unknown ∧
    classify_by_name "m16.foo".toList = Classification.text ∧
    (∀ (pre suf : List Char) (c : Char), c ∈ ['.', '/', ':'] →
      (∀ x ∈ suf, x ∉ ['.', '/', ':']) →
      extension (pre ++ c :: suf) = if c = '.' then suf.map Char.toLower else []) ∧
    (∀ s : List Char, (∀ x ∈ s, x ∉ ['.', '/', ':']) → extension s = []) ∧
    extension "FOO.C".toList = "c".toList ∧
    classify_by_name "FOO.C".toList = Classification.text ∧
    extension "dir.c/README".toList = [] ∧
    classify_by_name "dir.c/README".toList = Classification.unknown := by
  refine ⟨?_, by decide, by decide, by decide, by decide, ?_, extension_no_separator,
    by decide, by decide, by decide, by decide⟩
  · intro s
    unfold classify_by_name
    cases ht : is_text_file_internal s
    · cases hb : is_binary_file_internal s <;> simp
    · simp
  · intro pre suf c hc hsuf
    exact extension_append_cons pre c suf hc hsuf

/-- C8 as stated fails at `m16.foo.`: the basename is `m16.foo.`, which starts with `m`
followed by `16.` and four more characters, the extension is empty, and
`is_text_file_internal` returns false. -/
theorem is_text_file_internal_m16_fails :
    basename "m16.foo.".toList = 'm' :: '1' :: '6' :: '.' :: "foo.".toList ∧
    "foo.".toList ≠ [] ∧ extension "m16.foo.".toList = [] ∧
    is_text_file_internal "m16.foo.".toList = false := by
  decide

/-- C8, amended: for a path whose basename starts with one of `m`, `M`, `e`, `E` followed by
`16.` and at least one more character, `is_text_file_internal` returns true whenever the path
does not end in `.`, whatever the extension then is; the path ends in `.` exactly when the
extension is empty, and then the function returns false. -/
theorem is_text_file_internal_m16_rule (path_name rest : List Char) (c : Char)
    (hc : c ∈ ['m', 'M', 'e', 'E'])
    (hb : basename path_name = c :: '1' :: '6' :: '.' :: rest) (hrest : rest ≠ []) :
    (path_name.getLast? ≠ some '.' → is_text_file_internal path_name = true) ∧
    (path_name.getLast? = some '.' → is_text_file_internal path_name = false) ∧
    (path_name.getLast? = some '.' ↔ extension path_name = []) := by
  obtain ⟨pre, hpre, hnosep⟩ := basename_spec path_name
  have hdot : ∃ x ∈ basename path_name, x ∈ ['.'] :=
    ⟨'.', by rw [hb]; simp, List.mem_singleton.2 rfl⟩
  obtain ⟨b1, d, suf, hsplit, hd, hsuf⟩ := exists_last_split ['.'] (basename path_name) hdot
  have hd' : d = '.' := List.mem_singleton.1 hd
  subst hd'
  have hsufdot : '.' ∉ suf := fun h => hsuf '.' h (List.mem_singleton.2 rfl)
  have hsuf3 : ∀ x ∈ suf, x ∉ ['.', '/', ':'] := by
    intro x hx hx3
    have hxb : x ∈ basename path_name := by rw [hsplit]; simp [hx]
    have h2 := hnosep x hxb
    have h1 : x ≠ '.' := fun h => hsufdot (h ▸ hx)
    simp only [List.mem_cons, List.mem_singleton, List.not_mem_nil, or_false] at hx3 h2
    rcases hx3 with h | h | h
    · exact h1 h
    · exact h2 (Or.inl h)
    · exact h2 (Or.inr h)
  have hpath : path_name = (pre ++ b1) ++ '.' :: suf := by
    rw [List.append_assoc, ← hsplit]; exact hpre
  have hext : extension path_name = suf.map tolower := by
    rw [hpath, extension_append_cons (pre ++ b1) '.' suf (by simp) hsuf3, if_pos rfl]
  have hlast : path_name.getLast? = some '.' ↔ suf = [] := by
    rw [hpath]; exact getLast?_append_cons_dot (pre ++ b1) suf hsufdot
  have hm16 : is_text_file_internal.m16 (basename path_name) = true := by
    rw [hb]
    cases rest with
    | nil => exact absurd rfl hrest
    | cons a l =>
      simp only [List.mem_cons, List.mem_singleton, List.not_mem_nil, or_false] at hc
      rcases hc with h | h | h | h <;> subst h <;>
        simp [is_text_file_internal.m16]
  have hextnil : extension path_name = [] ↔ suf = [] := by
    rw [hext]; exact List.map_eq_nil_iff
  refine ⟨?_, ?_, hlast.trans hextnil.symm⟩
  · intro h
    have hne : extension path_name ≠ [] := fun h' => h (hlast.2 (hextnil.1 h'))
    unfold is_text_file_internal
    simp only [hm16, List.isEmpty_iff, hne, if_false]
    simp
  · intro h
    have he : extension path_name = [] := hextnil.2 (hlast.1 h)
    unfold is_text_file_internal
    simp [he]

/-- Instance of the amended C8 at `lib/E16.Memory`. -/
theorem is_text_file_internal_m16_rule_witness :
    "lib/E16.Memory".toList.getLast? ≠ some '.' ∧
    is_text_file_internal "lib/E16.Memory".toList = true :=
  ⟨by decide,
    (is_text_file_internal_m16_rule "lib/E16.Memory".toList "Memory".toList 'E' (by decide)
      (by decide) (by decide)).1 (by decide)⟩

/-! ## The Finder-info claims -/

/-- C9: for a blob whose bytes 4..7 are `pdos`, whose byte 0 is `p` and whose bytes 2 and 3
are zero, `fixup_prodos_ftype` rewrites bytes 0..3 to the upper-case hex digit of `b >> 4`,
the upper-case hex digit of `b & 0x0f`, a space and a space, where `b` is byte 1, and keeps
every byte from offset 4 on; any other blob is returned as it is. -/
theorem fixup_prodos_ftype_spec (buffer : List Nat) (hb : buffer.getD 1 0 < 256) :
    (((buffer.drop 4).take 4 = bytesOf "pdos" ∧ buffer.getD 0 0 = 'p'.toNat ∧
        buffer.getD 2 0 = 0 ∧ buffer.getD 3 0 = 0) →
      fixup_prodos_ftype buffer =
        [hexDigitUpper (buffer.getD 1 0 >>> 4), hexDigitUpper (buffer.getD 1 0 &&& 0x0f),
          ' '.toNat, ' '.toNat] ++ buffer.drop 4) ∧
    (¬ ((buffer.drop 4).take 4 = bytesOf "pdos" ∧ buffer.getD 0 0 = 'p'.toNat ∧
        buffer.getD 2 0 = 0 ∧ buffer.getD 3 0 = 0) →
      fixup_prodos_ftype buffer = buffer) := by
  constructor
  · rintro ⟨h1, h2, h3, h4⟩
    unfold fixup_prodos_ftype
    rw [if_pos h1, if_pos ⟨h2, h3, h4⟩]
    simp only [Hex_getD _ (shiftRight_four_lt _ hb), Hex_getD _ (and_fifteen_lt _)]
    match buffer, h1 with
    | a0 :: a1 :: a2 :: a3 :: tl, _ => simp
    | [], h => simp [bytesOf] at h
    | [_], h => simp [bytesOf] at h
    | [_, _], h => simp [bytesOf] at h
    | [_, _, _], h => simp [bytesOf] at h
  · intro h
    unfold fixup_prodos_ftype
    by_cases h1 : (buffer.drop 4).take 4 = bytesOf "pdos"
    · rw [if_pos h1, if_neg (fun h' => h ⟨h1, h'⟩)]
    · rw [if_neg h1]

/-- Instance of C9 at byte 1 = 0xAB: the first four bytes become `A`, `B`, space, space. -/
theorem fixup_prodos_ftype_spec_witness :
    fixup_prodos_ftype ([112, 0xAB, 0, 0] ++ bytesOf "pdos" ++ List.replicate 24 7) =
      ['A'.toNat, 'B'.toNat, ' '.toNat, ' '.toNat] ++ bytesOf "pdos" ++ List.replicate 24 7 :=
  (fixup_prodos_ftype_spec ([112, 0xAB, 0, 0] ++ bytesOf "pdos" ++ List.replicate 24 7)
    (by decide)).1 (by decide)

/-- C10: for a path with no stored `com.apple.FinderInfo` attribute and either value of
`extended`, `get_finder_info` returns `noErr` and a blob of 32 (extended) or 16 bytes that is
all zero when `is_text_file_internal` is false and `TEXTMPS ` followed by zeros when it is
true; in every case, attribute stored or not, the 16-byte result is the first 16 bytes of
the 32-byte result and the status is the same. -/
theorem get_finder_info_absent (finderInfo : List Char → Option (List Nat))
    (path_name : List Char) :
    (finderInfo path_name = none → ∀ extended : Bool,
      (get_finder_info finderInfo path_name extended).1 = noErr ∧
      (get_finder_info finderInfo path_name extended).1 = 0 ∧
      (get_finder_info finderInfo path_name extended).2 =
        if is_text_file_internal path_name then
          bytesOf "TEXTMPS " ++ List.replicate ((if extended then 32 else 16) - 8) 0
        else List.replicate (if extended then 32 else 16) 0) ∧
    (get_finder_info finderInfo path_name false).2 =
      (get_finder_info finderInfo path_name true).2.take 16 ∧
    (get_finder_info finderInfo path_name false).1 =
      (get_finder_info finderInfo path_name true).1 := by
  refine ⟨?_, ?_, ?_⟩
  · intro h extended
    unfold get_finder_info
    simp only [h]
    cases is_text_file_internal path_name <;> cases extended <;> decide
  · unfold get_finder_info
    cases finderInfo path_name with
    | none => simp [List.take_take]
    | some data =>
      simp only
      split <;> simp [List.take_take]
  · unfold get_finder_info
    cases finderInfo path_name with
    | none => rfl
    | some data =>
      simp only
      split <;> rfl

/-- Instance of C10 at `main.c` (text) and `notes` (not text) on a host without attributes. -/
theorem get_finder_info_absent_witness :
    get_finder_info (fun _ => none) "main.c".toList false =
      (0, bytesOf "TEXTMPS " ++ List.replicate 8 0) ∧
    get_finder_info (fun _ => none) "notes".toList true = (0, List.replicate 32 0) ∧
    (get_finder_info (fun _ => none) "main.c".toList true).2 =
      bytesOf "TEXTMPS " ++ List.replicate 24 0 :=
  ⟨by decide, by decide,
    by
      have h := ((get_finder_info_absent (fun _ => none) "main.c".toList).1 rfl true).2.2
      rw [h]
      decide⟩

/-! ## The file-information claims -/

/-- Entry count of a directory whose link count `n` is at most 2147483649, so that `n - 2`
fits `int links`: `get_file_info` returns `noErr`, sets the kind to directory and the entry
count to `max(0, min(65535, n - 2))`, which is 0 for `n` = 0, 1, 2 and 65535 for `n` = 70000,
and leaves the four fork sizes and the Finder info as they were. -/
theorem get_file_info_entry_count (macos_error_from_errno : Nat → Int)
    (stat : List Char → Except Nat Stat) (finderInfo : List Char → Option (List Nat))
    (rfork : List Char → Option (Option Int)) (extended : Bool) (path_name : List Char)
    (fi : file_info) (st : Stat) (hst : stat path_name = Except.ok st)
    (hdir : st.S_ISDIR = true) (hn : st.st_nlink ≤ 2147483649) :
    (get_file_info macos_error_from_errno stat finderInfo rfork extended path_name fi).1
      = noErr ∧
    (get_file_info macos_error_from_errno stat finderInfo rfork extended path_name fi).2.type
      = FileType.directory ∧
    (get_file_info macos_error_from_errno stat finderInfo rfork extended path_name
      fi).2.entry_count = max 0 (min 65535 ((st.st_nlink : Int) - 2)) ∧
    (st.st_nlink ≤ 2 →
      (get_file_info macos_error_from_errno stat finderInfo rfork extended path_name
        fi).2.entry_count = 0) ∧
    (st.st_nlink = 70000 →
      (get_file_info macos_error_from_errno stat finderInfo rfork extended path_name
        fi).2.entry_count = 65535) ∧
    (get_file_info macos_error_from_errno stat finderInfo rfork extended path_name
      fi).2.data_logical_size = fi.data_logical_size ∧
    (get_file_info macos_error_from_errno stat finderInfo rfork extended path_name
      fi).2.data_physical_size = fi.data_physical_size ∧
    (get_file_info macos_error_from_errno stat finderInfo rfork extended path_name
      fi).2.resource_logical_size = fi.resource_logical_size ∧
    (get_file_info macos_error_from_errno stat finderInfo rfork extended path_name
      fi).2.resource_physical_size = fi.resource_physical_size ∧
    (get_file_info macos_error_from_errno stat finderInfo rfork extended path_name
      fi).2.finder_info = fi.finder_info := by
  rw [get_file_info_directory macos_error_from_errno stat finderInfo rfork extended path_name
    fi st hst hdir, linksOf_eq _ hn]
  refine ⟨rfl, rfl, ?_, ?_, ?_, rfl, rfl, rfl, rfl, rfl⟩
  · simp only
    split <;> split <;> omega
  · intro h
    simp only
    split <;> split <;> omega
  · intro h
    simp only
    split <;> split <;> omega

/-- C13: for a directory with link count 2147483650, `st.st_nlink - 2` is 2147483648 in
unsigned arithmetic, `int links` becomes negative and is clamped to 0, so `get_file_info`
reports the entry count 0, where `max(0, min(65535, n - 2))` is 65535. -/
theorem get_file_info_entry_count_wraps :
    (get_file_info (fun _ => -36) (fun _ => Except.ok (Stat.mk true 2147483650 0 5 6))
      (fun _ => none) (fun _ => none) true "dir".toList
      (file_info.mk FileType.none 7 0 0 0 11 12 13 14 (List.replicate 32 9))).2.entry_count
      = 0 ∧
    max (0 : Int) (min 65535 ((2147483650 : Int) - 2)) = 65535 := by
  constructor
  · rw [get_file_info_directory _ _ _ _ _ _ _ (Stat.mk true 2147483650 0 5 6) rfl rfl]
    decide
  · decide

/-- Data-fork sizes of a regular file whose host size `s` satisfies
`0 ≤ s ≤ 9223372036854775296`, so that `s + 511` fits `off_t`: `get_file_info` returns
`noErr`, reports the data logical size `s` and the data physical size `(s + 511) & ~511`,
which is the least multiple of 512 that is at least `s`. -/
theorem get_file_info_data_sizes (macos_error_from_errno : Nat → Int)
    (stat : List Char → Except Nat Stat) (finderInfo : List Char → Option (List Nat))
    (rfork : List Char → Option (Option Int)) (extended : Bool) (path_name : List Char)
    (fi : file_info) (st : Stat) (hst : stat path_name = Except.ok st)
    (hdir : st.S_ISDIR = false) (hs : 0 ≤ st.st_size)
    (hmax : st.st_size ≤ 9223372036854775296) :
    (get_file_info macos_error_from_errno stat finderInfo rfork extended path_name fi).1
      = noErr ∧
    (get_file_info macos_error_from_errno stat finderInfo rfork extended path_name fi).2.type
      = FileType.file ∧
    (get_file_info macos_error_from_errno stat finderInfo rfork extended path_name
      fi).2.data_logical_size = st.st_size ∧
    (get_file_info macos_error_from_errno stat finderInfo rfork extended path_name
      fi).2.data_physical_size = Int.land (st.st_size + 511) (~~~(511 : Int)) ∧
    (512 : Int) ∣ (get_file_info macos_error_from_errno stat finderInfo rfork extended
      path_name fi).2.data_physical_size ∧
    st.st_size ≤ (get_file_info macos_error_from_errno stat finderInfo rfork extended
      path_name fi).2.data_physical_size ∧
    (get_file_info macos_error_from_errno stat finderInfo rfork extended path_name
      fi).2.data_physical_size - st.st_size < 512 ∧
    (∀ m : Int, (512 : Int) ∣ m → st.st_size ≤ m →
      (get_file_info macos_error_from_errno stat finderInfo rfork extended path_name
        fi).2.data_physical_size ≤ m) ∧
    ((512 : Int) ∣ st.st_size →
      (get_file_info macos_error_from_errno stat finderInfo rfork extended path_name
        fi).2.data_physical_size = st.st_size) := by
  rw [get_file_info_file macos_error_from_errno stat finderInfo rfork extended path_name
    fi st hst hdir]
  have hr := roundUp512_eq st.st_size hs hmax
  have hland : roundUp512 st.st_size = Int.land (st.st_size + 511) (~~~(511 : Int)) := by
    unfold roundUp512
    rw [toInt64_eq (st.st_size + 511) (by omega) (by omega)]
  refine ⟨rfl, rfl, rfl, hland, ?_, ?_, ?_, ?_, ?_⟩
  · simp only [hr]
    exact Dvd.intro_left _ rfl
  · simp only [hr]; omega
  · simp only [hr]; omega
  · intro m hm hsm
    simp only [hr]
    obtain ⟨k, rfl⟩ := hm
    omega
  · intro hdvd
    simp only [hr]
    obtain ⟨k, hk⟩ := hdvd
    omega

/-- C15: for a regular file whose resource fork has 1 byte, `get_file_info` reports the
resource physical size 1 and the resource logical size 512: the two assignments are the other
way round than for the data fork, so the physical size is below the logical size. -/
theorem get_file_info_resource_sizes_swapped :
    (get_file_info (fun _ => -36) (fun _ => Except.ok (Stat.mk false 1 1000 5 6))
      (fun _ => none) (fun _ => some (some 1)) true "notes".toList
      (file_info.mk FileType.none 7 0 0 0 11 12 13 14
        (List.replicate 32 9))).2.resource_logical_size = 512 ∧
    (get_file_info (fun _ => -36) (fun _ => Except.ok (Stat.mk false 1 1000 5 6))
      (fun _ => none) (fun _ => some (some 1)) true "notes".toList
      (file_info.mk FileType.none 7 0 0 0 11 12 13 14
        (List.replicate 32 9))).2.resource_physical_size = 1 ∧
    (get_file_info (fun _ => -36) (fun _ => Except.ok (Stat.mk false 1 1000 5 6))
      (fun _ => none) (fun _ => some (some 1)) true "notes".toList
      (file_info.mk FileType.none 7 0 0 0 11 12 13 14
        (List.replicate 32 9))).2.data_logical_size = 1000 := by
  have h := (get_file_info_resource_sizes (fun _ => -36)
    (fun _ => Except.ok (Stat.mk false 1 1000 5 6)) (fun _ => none) (fun _ => some (some 1))
    true "notes".toList (file_info.mk FileType.none 7 0 0 0 11 12 13 14 (List.replicate 32 9))
    (Stat.mk false 1 1000 5 6) rfl rfl).1 1 rfl (by decide) (by decide)
  refine ⟨?_, h.1, ?_⟩
  · rw [h.2]; decide
  · rw [get_file_info_file _ _ _ _ _ _ _ (Stat.mk false 1 1000 5 6) rfl rfl]

/-- Inside the range of `time_t`: `unix_to_mac(0) = 0`; for every other timestamp `t` whose
sum `t + 2082844800` fits the signed 64-bit `time_t`, `unix_to_mac(t) = t + 2082844800`; the
constant `epoch_adjust` is 86400 times the 24107 days from 1 January 1904 to 1 January 1970,
66 years of which 17 are leap years; and evaluating its initialiser in 32-bit `int`
arithmetic overflows at no step. -/
theorem unix_to_mac_epoch :
    unix_to_mac 0 = 0 ∧
    (∀ t : Int, t ≠ 0 → -9223372036854775808 ≤ t + 2082844800 →
      t + 2082844800 ≤ 9223372036854775807 → unix_to_mac t = t + 2082844800) ∧
    epoch_adjust = 2082844800 ∧
    epoch_adjust = 86400 * (daysBetweenYears 1904 1970 : Int) ∧
    daysBetweenYears 1904 1970 = 24107 ∧
    1970 - 1904 = 66 ∧
    ((List.range 66).filter (fun i => isLeapYear (1904 + i))).length = 17 ∧
    epoch_adjust_int32 = some 2082844800 := by
  have he : epoch_adjust = 2082844800 := by decide
  refine ⟨by decide, ?_, he, by decide, by decide, by decide, by decide, by decide⟩
  intro t ht h1 h2
  simp only [unix_to_mac, if_neg ht, he, toInt64_eq _ h1 h2]

/-- C17 as stated fails: for the regular file `a.txt` without attributes, `get_file_info`
returns `noErr` and resource sizes 0, and the first 8 bytes of the Finder info are zero, not
`TEXTMPS `, since `txt` is no extension of the text table. -/
theorem get_file_info_a_txt_not_text :
    is_text_file_internal "a.txt".toList = false ∧
    (get_file_info (fun _ => -36) (fun _ => Except.ok (Stat.mk false 1 1000 5 6))
      (fun _ => none) (fun _ => none) false "a.txt".toList
      (file_info.mk FileType.none 0 0 0 0 0 0 0 0 (List.replicate 32 0))).2.finder_info.take 8
      = List.replicate 8 0 ∧
    (get_file_info (fun _ => -36) (fun _ => Except.ok (Stat.mk false 1 1000 5 6))
      (fun _ => none) (fun _ => none) false "a.txt".toList
      (file_info.mk FileType.none 0 0 0 0 0 0 0 0 (List.replicate 32 0))).2.finder_info.take 8
      ≠ bytesOf "TEXTMPS " := by
  rw [get_file_info_file _ _ _ _ _ _ _ (Stat.mk false 1 1000 5 6) rfl rfl]
  decide

/-- C17, amended: for an existing regular file with no stored metadata attribute and no
resource-fork attribute, `get_file_info` returns `noErr`, reports resource-fork logical and
physical sizes 0, and the first 8 bytes of the Finder info are `TEXTMPS ` when
`is_text_file_internal` takes the name for text (as for `a.c`) and zero otherwise (as for
`a.txt`). -/
theorem get_file_info_no_attributes (macos_error_from_errno : Nat → Int)
    (stat : List Char → Except Nat Stat) (finderInfo : List Char → Option (List Nat))
    (rfork : List Char → Option (Option Int)) (extended : Bool) (path_name : List Char)
    (fi : file_info) (st : Stat) (hst : stat path_name = Except.ok st)
    (hdir : st.S_ISDIR = false) (hattr : finderInfo path_name = none)
    (hrf : rfork path_name = none) :
    (get_file_info macos_error_from_errno stat finderInfo rfork extended path_name fi).1
      = noErr ∧
    (get_file_info macos_error_from_errno stat finderInfo rfork extended path_name
      fi).2.resource_logical_size = 0 ∧
    (get_file_info macos_error_from_errno stat finderInfo rfork extended path_name
      fi).2.resource_physical_size = 0 ∧
    (get_file_info macos_error_from_errno stat finderInfo rfork extended path_name
      fi).2.finder_info.take 8 =
        (if is_text_file_internal path_name then bytesOf "TEXTMPS " else List.replicate 8 0) ∧
    is_text_file_internal "a.txt".toList = false ∧
    is_text_file_internal "a.c".toList = true := by
  have hres := (get_file_info_resource_sizes macos_error_from_errno stat finderInfo rfork
    extended path_name fi st hst hdir).2 (Or.inl hrf)
  refine ⟨?_, hres.2, hres.1, ?_, by decide, by decide⟩
  · rw [get_file_info_file macos_error_from_errno stat finderInfo rfork extended path_name
      fi st hst hdir]
  · rw [get_file_info_file macos_error_from_errno stat finderInfo rfork extended path_name
      fi st hst hdir]
    simp only [get_finder_info, hattr, memcpy]
    cases is_text_file_internal path_name <;> cases extended <;>
      simp [bytesOf, List.take_append_eq_append_take]

/-- Instance of the amended C17 at `a.txt`: the resource sizes are 0. -/
theorem get_file_info_no_attributes_witness :
    (get_file_info (fun _ => -36) (fun _ => Except.ok (Stat.mk false 1 1000 5 6))
      (fun _ => none) (fun _ => none) false "a.txt".toList
      (file_info.mk FileType.none 0 0 0 0 0 0 0 0
        (List.replicate 32 0))).2.resource_logical_size = 0 :=
  (get_file_info_no_attributes (fun _ => -36)
    (fun _ => Except.ok (Stat.mk false 1 1000 5 6)) (fun _ => none) (fun _ => none) false
    "a.txt".toList (file_info.mk FileType.none 0 0 0 0 0 0 0 0 (List.replicate 32 0))
    (Stat.mk false 1 1000 5 6) rfl rfl rfl rfl).2.1

/-- C18: for the path `notes` with a stored attribute of the 8 bytes 1..8,
`get_finder_info` returns status 0 and the blob 1..8 followed by zeros, while without an
attribute it returns all zeros; for `main.c` with 20 bytes of value 5 it returns `TEXTMPS `
followed by eight 5s, while without an attribute `TEXTMPS ` is followed by zeros. -/
theorem get_finder_info_short_attribute_leaks :
    get_finder_info (fun _ => some [1, 2, 3, 4, 5, 6, 7, 8]) "notes".toList false =
      (0, [1, 2, 3, 4, 5, 6, 7, 8, 0, 0, 0, 0, 0, 0, 0, 0]) ∧
    get_finder_info (fun _ => none) "notes".toList false = (0, List.replicate 16 0) ∧
    get_finder_info (fun _ => some (List.replicate 20 5)) "main.c".toList false =
      (0, bytesOf "TEXTMPS " ++ List.replicate 8 5) ∧
    get_finder_info (fun _ => none) "main.c".toList false =
      (0, bytesOf "TEXTMPS " ++ List.replicate 8 0) := by
  decide

/-- C19: with codes that match none of the binary rules (both 0 here), `is_binary_file`
answers false for `foo.o` and true for `foo.c`, the answers of `is_text_file_internal`, while
`is_binary_file_internal` answers true for `foo.o` and false for `foo.c`. -/
theorem is_binary_file_falls_back_to_text :
    is_binary_file (fun _ => none) "foo.o".toList 0 0 = false ∧
    is_binary_file_internal "foo.o".toList = true ∧
    is_binary_file (fun _ => none) "foo.c".toList 0 0 = true ∧
    is_binary_file_internal "foo.c".toList = false := by
  decide

/-- C20: in every registry state reachable from the empty one the table holds no path twice;
for every token `t` with `1 ≤ t ≤ N`, `idForPath(pathForID(t), false)` returns `t` and leaves the
table as it is; and for every path `p`, `pathForID` of the token that `idForPath(p, true)`
returns is `p`. -/
theorem registry_bijection (hasher : List Char → Nat) (q : List Entry)
    (hq : Reachable hasher q) :
    (paths q).Nodup ∧
    (∀ t : Int, 1 ≤ t → t ≤ q.length →
      idForPath hasher q (pathForID q t) false = (t, q)) ∧
    (∀ p : List Char,
      pathForID (idForPath hasher q p true).2 (idForPath hasher q p true).1 = p) := by
  have hh := hashOK_of_reachable hasher q hq
  have hn := nodup_of_reachable hasher q hq
  refine ⟨hn, ?_, fun p => (pathForID_idForPath hasher q p).2.2⟩
  intro t h1 h2
  have hlt : (t - 1).toNat < q.length := by omega
  have hget : q[(t - 1).toNat]? = some q[(t - 1).toNat] := List.getElem?_eq_getElem hlt
  have hpath := pathForID_get q (t - 1).toNat _ hget
  have ht : (((t - 1).toNat : Nat) : Int) + 1 = t := by omega
  rw [ht] at hpath
  have hpos : (paths q)[(t - 1).toNat]? = some (pathForID q t) := by
    simp only [paths, List.getElem?_map, hget, Option.map_some', hpath]
  obtain ⟨k, hk1, hk2⟩ := idForPath_of_mem hasher q (pathForID q t) false hh
    (List.getElem?_mem hpos)
  have hk : k = (t - 1).toNat := nodup_index_unique _ hn _ k _ hk1 hpos
  rw [hk2, hk, ht]

/-- Instance of C20 at the registry holding `/tmp/vol/`: token 1 maps to that path and
back. -/
theorem registry_bijection_witness :
    Reachable (fun s => s.length) [Entry.mk "/tmp/vol/".toList 9] ∧
    idForPath (fun s => s.length) [Entry.mk "/tmp/vol/".toList 9]
      (pathForID [Entry.mk "/tmp/vol/".toList 9] 1) false =
      (1, [Entry.mk "/tmp/vol/".toList 9]) :=
  have hr : Reachable (fun s => s.length) [Entry.mk "/tmp/vol/".toList 9] :=
    ⟨[("/tmp/vol/".toList, true)], by decide⟩
  ⟨hr, (registry_bijection (fun s => s.length) _ hr).2.1 1 (by decide) (by decide)⟩

/-! ## The set-info claims -/

/-- C11 as stated fails when an attribute exists and the read probe fails: over a store in
which `/tmp/vol/a.c` holds 40 bytes, `getxattr` with a 32-byte buffer fails with `ERANGE`,
which is neither `ENOENT` nor `EACCES`; `FSpSetFInfo` returns 0 and stores the basic region
followed by 16 zeros, not by the stored bytes 16..31. -/
theorem FSpSetFInfo_wipes_long_attribute :
    storeGetxattr (fun _ => some (List.range 40))
      (FSpPath [Entry.mk "/tmp/vol/".toList 9] 1 "a.c".toList) = XattrProbe.fail ERANGE ∧
    ERANGE ≠ ENOENT ∧ ERANGE ≠ EACCES ∧
    (FSpSetFInfo_store (fun e => -(e : Int)) (fun _ => some (List.range 40))
      [Entry.mk "/tmp/vol/".toList 9] 1 "a.c".toList (List.replicate 16 3)).1 = 0 ∧
    (FSpSetFInfo_store (fun e => -(e : Int)) (fun _ => some (List.range 40))
      [Entry.mk "/tmp/vol/".toList 9] 1 "a.c".toList (List.replicate 16 3)).2
        (FSpPath [Entry.mk "/tmp/vol/".toList 9] 1 "a.c".toList) =
      some (List.replicate 16 3 ++ List.replicate 16 0) ∧
    ((List.range 40).take 32).drop 16 ≠ List.replicate 16 0 := by
  decide

/-- C11, amended: for a 16-byte basic region `b`, when the read probe of `FSpSetFInfo` succeeds
on a stored 32-byte attribute the handler writes `b` followed by the stored bytes 16..31 (a
shorter attribute counts as padded with zeros); when the probe fails with an error other than
`ENOENT` and `EACCES`, because no attribute exists or for another reason such as `ERANGE` on
an attribute longer than 32 bytes, it writes `b` followed by 16 zeros; in both cases the value
has 32 bytes and is what the store holds afterwards, with status 0, if the write succeeds;
when the probe fails with `ENOENT` or `EACCES` the handler returns that mapped status and
issues no write, so the store is as before. -/
theorem FSpSetFInfo_frame (errno_to_oserr : Nat → Int) (getxattr : List Char → XattrProbe)
    (setxattr : List Char → List Nat → Option Nat) (q : List Entry) (parentID : Int)
    (leaf : List Char) (b : List Nat) (hb : b.length = 16) :
    (∀ data, getxattr (FSpPath q parentID leaf) = XattrProbe.ok data → data.length = 32 →
      StoresBlob setxattr (FSpSetFInfo errno_to_oserr getxattr setxattr q parentID leaf b)
        (FSpPath q parentID leaf) b (data.drop 16)) ∧
    (∀ data, getxattr (FSpPath q parentID leaf) = XattrProbe.ok data → data.length ≤ 32 →
      StoresBlob setxattr (FSpSetFInfo errno_to_oserr getxattr setxattr q parentID leaf b)
        (FSpPath q parentID leaf) b
        ((data ++ List.replicate (32 - data.length) 0).drop 16)) ∧
    (∀ e, getxattr (FSpPath q parentID leaf) = XattrProbe.fail e → e ≠ ENOENT → e ≠ EACCES →
      StoresBlob setxattr (FSpSetFInfo errno_to_oserr getxattr setxattr q parentID leaf b)
        (FSpPath q parentID leaf) b (List.replicate 16 0)) ∧
    (∀ e, getxattr (FSpPath q parentID leaf) = XattrProbe.fail e →
      (e = ENOENT ∨ e = EACCES) →
      FSpSetFInfo errno_to_oserr getxattr setxattr q parentID leaf b =
        (toU16 (errno_to_oserr e), none) ∧
      ∀ store : List Char → Option (List Nat),
        storeAfter store (FSpSetFInfo errno_to_oserr getxattr setxattr q parentID leaf b).2
          = store) ∧
    (∀ store : List Char → Option (List Nat),
      (store (FSpPath q parentID leaf) = none →
        (FSpSetFInfo_store errno_to_oserr store q parentID leaf b).2
          (FSpPath q parentID leaf) = some (b ++ List.replicate 16 0)) ∧
      (∀ data, store (FSpPath q parentID leaf) = some data → data.length = 32 →
        (FSpSetFInfo_store errno_to_oserr store q parentID leaf b).2
          (FSpPath q parentID leaf) = some (b ++ data.drop 16)) ∧
      (∀ data, store (FSpPath q parentID leaf) = some data → 32 < data.length →
        (FSpSetFInfo_store errno_to_oserr store q parentID leaf b).2
          (FSpPath q parentID leaf) = some (b ++ List.replicate 16 0))) := by
  have hstore : ∀ (v : List Nat),
      (FSpSetFInfo errno_to_oserr getxattr setxattr q parentID leaf b).2 =
        some (FSpPath q parentID leaf, v) →
      setxattr (FSpPath q parentID leaf) v = none →
      (FSpSetFInfo errno_to_oserr getxattr setxattr q parentID leaf b).1 = 0 ∧
      ∀ store : List Char → Option (List Nat),
        storeAfter store (FSpSetFInfo errno_to_oserr getxattr setxattr q parentID leaf b).2
          (FSpPath q parentID leaf) = some v := by
    intro v hv hok
    refine ⟨FSpSetFInfo_status errno_to_oserr getxattr setxattr q parentID leaf b v _ hv hok,
      ?_⟩
    intro store
    rw [hv]
    simp only [storeAfter, if_true]
  have hpad : ∀ data : List Nat, data.length ≤ 32 →
      getxattr (FSpPath q parentID leaf) = XattrProbe.ok data →
      StoresBlob setxattr (FSpSetFInfo errno_to_oserr getxattr setxattr q parentID leaf b)
        (FSpPath q parentID leaf) b
        ((data ++ List.replicate (32 - data.length) 0).drop 16) := by
    intro data hlen hprobe
    have hv := FSpSetFInfo_of_ok errno_to_oserr getxattr setxattr q parentID leaf b hb data
      hprobe hlen
    refine ⟨_, hv, ?_, ?_, ?_, hstore _ hv⟩
    · simp only [List.length_append, List.length_drop, List.length_replicate]; omega
    · rw [List.take_append_of_le_length (by omega), List.take_of_length_le (by omega)]
    · rw [List.drop_append_of_le_length (by omega), List.drop_of_length_le (by omega),
        List.nil_append]
  refine ⟨?_, fun data hprobe hlen => hpad data hlen hprobe, ?_, ?_, ?_⟩
  · intro data hprobe hlen
    have h := hpad data (by omega) hprobe
    have h32 : data ++ List.replicate (32 - data.length) 0 = data := by
      rw [hlen]; simp
    rw [h32] at h
    exact h
  · intro e hprobe h1 h2
    have hv := FSpSetFInfo_of_fail errno_to_oserr getxattr setxattr q parentID leaf b hb e
      hprobe h1 h2
    refine ⟨_, hv, ?_, ?_, ?_, hstore _ hv⟩
    · simp only [List.length_append, List.length_replicate]; omega
    · rw [List.take_append_of_le_length (by omega), List.take_of_length_le (by omega)]
    · rw [List.drop_append_of_le_length (by omega), List.drop_of_length_le (by omega),
        List.nil_append]
  · intro e hprobe he
    have hr : FSpSetFInfo errno_to_oserr getxattr setxattr q parentID leaf b =
        (toU16 (errno_to_oserr e), none) := by
      simp only [FSpSetFInfo, hprobe, if_pos he]
    refine ⟨hr, ?_⟩
    intro store
    rw [hr]
    rfl
  · intro store
    refine ⟨?_, ?_, ?_⟩
    · intro hnone
      have hprobe : storeGetxattr store (FSpPath q parentID leaf) = XattrProbe.fail ENOATTR := by
        simp only [storeGetxattr, hnone]
      have hcall := FSpSetFInfo_of_fail errno_to_oserr (storeGetxattr store) (fun _ _ => none)
        q parentID leaf b hb ENOATTR hprobe (by decide) (by decide)
      simp only [FSpSetFInfo_store, hcall, storeAfter, if_true]
    · intro data hsome hlen
      have hprobe : storeGetxattr store (FSpPath q parentID leaf) = XattrProbe.ok data := by
        simp only [storeGetxattr, hsome, hlen, le_refl, if_true]
      have hcall := FSpSetFInfo_of_ok errno_to_oserr (storeGetxattr store) (fun _ _ => none)
        q parentID leaf b hb data hprobe (by omega)
      have h32 : data ++ List.replicate (32 - data.length) 0 = data := by
        rw [hlen]; simp
      rw [h32] at hcall
      simp only [FSpSetFInfo_store, hcall, storeAfter, if_true]
    · intro data hsome hlen
      have hprobe : storeGetxattr store (FSpPath q parentID leaf) = XattrProbe.fail ERANGE := by
        simp only [storeGetxattr, hsome, if_neg (not_le.2 hlen)]
      have hcall := FSpSetFInfo_of_fail errno_to_oserr (storeGetxattr store) (fun _ _ => none)
        q parentID leaf b hb ERANGE hprobe (by decide) (by decide)
      simp only [FSpSetFInfo_store, hcall, storeAfter, if_true]

/-- Instance of the amended C11: the attribute of `/tmp/vol/a.c` holds the bytes 0..31, the
basic region set is sixteen 3s; a second host answers `ENOENT`. -/
theorem FSpSetFInfo_frame_witness :
    StoresBlob (fun _ _ => none)
      (FSpSetFInfo (fun e => -(e : Int)) (fun _ => XattrProbe.ok (List.range 32))
        (fun _ _ => none) [Entry.mk "/tmp/vol/".toList 9] 1 "a.c".toList (List.replicate 16 3))
      (FSpPath [Entry.mk "/tmp/vol/".toList 9] 1 "a.c".toList) (List.replicate 16 3)
      ((List.range 32).drop 16) ∧
    FSpSetFInfo (fun e => -(e : Int)) (fun _ => XattrProbe.fail ENOENT)
        (fun _ _ => none) [Entry.mk "/tmp/vol/".toList 9] 1 "a.c".toList (List.replicate 16 3)
      = (toU16 (-2), none) :=
  ⟨(FSpSetFInfo_frame (fun e => -(e : Int)) (fun _ => XattrProbe.ok (List.range 32))
      (fun _ _ => none) [Entry.mk "/tmp/vol/".toList 9] 1 "a.c".toList (List.replicate 16 3)
      (by decide)).1 (List.range 32) rfl (by decide),
    by decide⟩

/-- C12: over an explicit attribute store in which the path has no attribute, reading the
blob with `get_finder_info` gives the classifier-fallback bytes, `FSpSetFInfo` with those 16
basic bytes returns 0, and reading the blob again from the store it leaves gives a blob whose
first 16 bytes are the bytes that were set. -/
theorem finder_info_round_trip (errno_to_oserr : Nat → Int)
    (store : List Char → Option (List Nat)) (q : List Entry) (parentID : Int)
    (leaf : List Char) (e1 e2 : Bool) (habsent : store (FSpPath q parentID leaf) = none) :
    (get_finder_info store (FSpPath q parentID leaf) e1).2.take 16 =
      (if is_text_file_internal (FSpPath q parentID leaf)
        then bytesOf "TEXTMPS " ++ List.replicate 8 0 else List.replicate 16 0) ∧
    (FSpSetFInfo_store errno_to_oserr store q parentID leaf
      ((get_finder_info store (FSpPath q parentID leaf) e1).2.take 16)).1 = 0 ∧
    (FSpSetFInfo_store errno_to_oserr store q parentID leaf
      ((get_finder_info store (FSpPath q parentID leaf) e1).2.take 16)).2
        (FSpPath q parentID leaf) =
      some ((get_finder_info store (FSpPath q parentID leaf) e1).2.take 16 ++
        List.replicate 16 0) ∧
    (get_finder_info
      (FSpSetFInfo_store errno_to_oserr store q parentID leaf
        ((get_finder_info store (FSpPath q parentID leaf) e1).2.take 16)).2
      (FSpPath q parentID leaf) e2).1 = 0 ∧
    (get_finder_info
      (FSpSetFInfo_store errno_to_oserr store q parentID leaf
        ((get_finder_info store (FSpPath q parentID leaf) e1).2.take 16)).2
      (FSpPath q parentID leaf) e2).2.take 16 =
      (get_finder_info store (FSpPath q parentID leaf) e1).2.take 16 := by
  have hb : (get_finder_info store (FSpPath q parentID leaf) e1).2.take 16 =
      (if is_text_file_internal (FSpPath q parentID leaf)
        then bytesOf "TEXTMPS " ++ List.replicate 8 0 else List.replicate 16 0) := by
    simp only [get_finder_info, habsent]
    cases is_text_file_internal (FSpPath q parentID leaf) <;> cases e1 <;> decide
  have hlen : ((get_finder_info store (FSpPath q parentID leaf) e1).2.take 16).length = 16 := by
    rw [hb]; split <;> decide
  have hprobe : storeGetxattr store (FSpPath q parentID leaf) = XattrProbe.fail ENOATTR := by
    simp only [storeGetxattr, habsent]
  have hcall := FSpSetFInfo_of_fail errno_to_oserr (storeGetxattr store) (fun _ _ => none) q
    parentID leaf _ hlen ENOATTR hprobe (by decide) (by decide)
  have hstatus := FSpSetFInfo_status errno_to_oserr (storeGetxattr store) (fun _ _ => none) q
    parentID leaf _ _ _ hcall rfl
  have hstore : (FSpSetFInfo_store errno_to_oserr store q parentID leaf
      ((get_finder_info store (FSpPath q parentID leaf) e1).2.take 16)).2
        (FSpPath q parentID leaf) =
      some ((get_finder_info store (FSpPath q parentID leaf) e1).2.take 16 ++
        List.replicate 16 0) := by
    simp only [FSpSetFInfo_store, hcall, storeAfter, if_true]
  refine ⟨hb, hstatus, hstore, get_finder_info_status _ _ _, ?_⟩
  rw [hb] at hstore ⊢
  generalize (FSpSetFInfo_store errno_to_oserr store q parentID leaf
    (if is_text_file_internal (FSpPath q parentID leaf) = true
      then bytesOf "TEXTMPS " ++ List.replicate 8 0 else List.replicate 16 0)).2 = S
    at hstore ⊢
  simp only [get_finder_info, hstore]
  cases is_text_file_internal (FSpPath q parentID leaf) <;> cases e2 <;> decide

/-- Instance of C12 at `/tmp/vol/a.c` in an empty store: the bytes set and read back are
`TEXTMPS ` followed by eight zeros. -/
theorem finder_info_round_trip_witness :
    (get_finder_info
      (FSpSetFInfo_store (fun e => -(e : Int)) (fun _ => none)
        [Entry.mk "/tmp/vol/".toList 9] 1 "a.c".toList
        ((get_finder_info (fun _ => none)
          (FSpPath [Entry.mk "/tmp/vol/".toList 9] 1 "a.c".toList) false).2.take 16)).2
      (FSpPath [Entry.mk "/tmp/vol/".toList 9] 1 "a.c".toList) true).2.take 16 =
      (get_finder_info (fun _ => none)
        (FSpPath [Entry.mk "/tmp/vol/".toList 9] 1 "a.c".toList) false).2.take 16 ∧
    (get_finder_info (fun _ => none)
        (FSpPath [Entry.mk "/tmp/vol/".toList 9] 1 "a.c".toList) false).2.take 16 =
      bytesOf "TEXTMPS " ++ List.replicate 8 0 :=
  ⟨(finder_info_round_trip (fun e => -(e : Int)) (fun _ => none)
      [Entry.mk "/tmp/vol/".toList 9] 1 "a.c".toList false true rfl).2.2.2.2,
    by decide⟩

end MPW
